import Mathlib

/-!
Verification of `std/fs/expand_glob.ts`: a shallow embedding of the glob
expansion engine (`expandGlob` / `expandGlobSync`) together with models of
its external collaborators (the directory walker, the glob pattern
compiler and the path utilities, which live outside the sources at hand
and are modelled from the specification of their interfaces).

Paths are plain strings; the filesystem is a finite association list from
absolute path to a directory flag, plus a list of paths whose stat raises
a non-NotFound error.  Glob pattern matchers are abstract boolean
predicates on path strings, and the compiler from glob syntax to matchers
is an abstract parameter of every definition that uses it.
-/

namespace ExpandGlob

/-- Options handed to the pattern compiler (`extended`, `globstar`), as in
the `GlobOptions` interface of the source. -/
structure GlobOptionsM where
  extended : Bool
  globstar : Bool
deriving DecidableEq, Repr

/-- Modelled from the spec: a compiled glob pattern is an abstract matcher
testing a path string for membership (the pattern compiler is an external
collaborator, specified only at its interface). -/
def GlobMatcher : Type := String → Bool

/-- Modelled from the spec: the external pattern compiler
`compile(pathPattern, options) -> matcher`. -/
def GlobCompiler : Type := String → GlobOptionsM → GlobMatcher

/-- The entry model of the source: a matched filesystem node, identified
by its absolute path, with its directory flag. -/
structure WalkEntry where
  path : String
  isDirectory : Bool
deriving DecidableEq, Repr

/-- Error kinds of the filesystem primitives: NotFound versus any other
(I/O or permission) failure. -/
inductive FsError where
  | notFound : FsError
  | otherError : FsError
deriving DecidableEq, Repr

/-- The filesystem model: a finite list of nodes (absolute path, isDirectory)
plus the set of paths whose stat fails with a non-NotFound error. -/
structure Fs where
  entries : List (String × Bool)
  errPaths : List String
deriving DecidableEq, Repr

/-- Look up the directory flag of a path in the filesystem. -/
def Fs.statKind (fs : Fs) (p : String) : Option Bool :=
  (fs.entries.find? (fun q => q.1 = p)).map (fun q => q.2)

/-- Modelled from the spec: the walker's single-entry stat primitive
`statEntry(path) -> WalkEntry` (`createWalkEntry` of `fs/walk.ts`, not under
the sources at hand); NotFound is a distinguishable error kind. -/
def createWalkEntry (fs : Fs) (p : String) : Except FsError WalkEntry :=
  if fs.errPaths.contains p then .error .otherError
  else
    match fs.statKind p with
    | some d => .ok { path := p, isDirectory := d }
    | none => .error .notFound

/-- Modelled from the spec: synchronous variant of the stat primitive
(`createWalkEntrySync`), identical apart from blocking. -/
def createWalkEntrySync (fs : Fs) (p : String) : Except FsError WalkEntry :=
  if fs.errPaths.contains p then .error .otherError
  else
    match fs.statKind p with
    | some d => .ok { path := p, isDirectory := d }
    | none => .error .notFound

/-! ### Path-string helpers

The path utilities (`isAbsolute`, `normalize`, `joinGlobs`, `isGlob`,
`SEP_PATTERN`) live in `std/path` which is outside the sources at hand;
they are modelled from the spec's description of their interface.  String
manipulation is done over `List Char` so that every definition reduces in
the kernel. -/

/-- Separator recognition: `/` always, plus `\` on Windows
(the source's `SEP_PATTERN`). -/
def isSepChar (w : Bool) (c : Char) : Bool := c = '/' || (w && c = '\\')

/-- Windows drive letter recognition, as in the path utilities. -/
def isWinDeviceRoot (c : Char) : Bool :=
  ('a' ≤ c && c ≤ 'z') || ('A' ≤ c && c ≤ 'Z')

/-- Modelled from the spec: the absolute-path test of the path utilities.
POSIX: a leading separator.  Windows: a leading separator, or a drive
letter followed by a colon and a separator. -/
def isAbsoluteModel (w : Bool) (p : String) : Bool :=
  if w then
    match p.data with
    | [] => false
    | c :: rest =>
      isSepChar true c ||
        (isWinDeviceRoot c &&
          match rest with
          | c1 :: c2 :: _ => c1 = ':' && isSepChar true c2
          | _ => false)
  else
    match p.data with
    | [] => false
    | c :: _ => c = '/'

/-- Modelled from the spec: glob-metacharacter detection for a single
segment (the path utilities' `isGlob`). -/
def isGlobSeg (s : String) : Bool :=
  s.data.any (fun c =>
    c = '*' || c = '?' || c = '[' || c = ']' || c = '{' || c = '}' ||
    c = '(' || c = ')' || c = '!' || c = '+' || c = '@' || c = '|')

/-- Split a character list on every occurrence of one separator character,
keeping empty pieces (the semantics of a single-character split). -/
def splitCharList (sep : Char) (cur : List Char) : List Char → List String
  | [] => [String.mk cur.reverse]
  | c :: rest =>
    if c = sep then String.mk cur.reverse :: splitCharList sep [] rest
    else splitCharList sep (c :: cur) rest

/-- Join segments with `/` between them. -/
def intercalateSlash : List String → String
  | [] => ""
  | [s] => s
  | s :: rest => s ++ "/" ++ intercalateSlash rest

/-- Marker standing for a parent-reference protected from normalization,
mirroring the `\0` replacement trick of `normalizeGlob`. -/
def protectedDots : String := "\x00"

/-- Mark every `..` segment that directly follows a `**` segment, as the
`normalizeGlob` pre-pass does on the raw glob string. -/
def protectAux (prev : Option String) : List String → List String
  | [] => []
  | s :: rest =>
    (if s = ".." && prev = some "**" then protectedDots else s) ::
      protectAux (some s) rest

/-- Core of path normalization over an absolute path's segments: drop empty
and `.` segments, let `..` pop the previous segment (or vanish at the
root). -/
def normSegsCore (acc : List String) : List String → List String
  | [] => acc
  | s :: rest =>
    if s = "" || s = "." then normSegsCore acc rest
    else if s = ".." then normSegsCore acc.dropLast rest
    else normSegsCore (acc ++ [s]) rest

/-- Modelled from the spec: normalization of an absolute path
(`normalize` of the path utilities, and `normalizeGlob` when `globstar` is
set, which protects a `..` directly following a `**` segment from being
collapsed).  A trailing separator is preserved. -/
def normalizeAbs (globstar : Bool) (p : String) : String :=
  let raw := splitCharList '/' [] p.data
  let prot := if globstar then protectAux none raw else raw
  let segs := (normSegsCore [] prot).map
    (fun s => if s = protectedDots then ".." else s)
  let core := "/" ++ intercalateSlash segs
  if p.data.getLast? = some '/' && segs ≠ [] then core ++ "/" else core

/-- Modelled from the spec: glob-aware join of two path pieces
(`joinGlobs([a, b], globOptions)`), i.e. separator join followed by
glob-aware normalization. -/
def joinGlobsModel (globstar : Bool) (a b : String) : String :=
  normalizeAbs globstar (a ++ "/" ++ b)

/-! ### The splitter (`split` of `expand_glob.ts`) -/

/-- The `SplitPath` record of the source. -/
structure SplitPath where
  segments : List String
  isAbsolute : Bool
  hasTrailingSep : Bool
  winRoot : Option String
deriving DecidableEq, Repr

/-- One pass of splitting on maximal separator runs: `inRun` records
whether the previous character was a separator (so further separators
extend the same run instead of opening new empty pieces), and `cur` holds
the current piece, reversed. -/
def jsSplitAux (sep : Char → Bool) (inRun : Bool) (cur : List Char) :
    List Char → List String
  | [] => [String.mk cur.reverse]
  | c :: rest =>
    if sep c then
      if inRun then jsSplitAux sep true cur rest
      else String.mk cur.reverse :: jsSplitAux sep true [] rest
    else jsSplitAux sep false (c :: cur) rest

/-- Split a character list on maximal runs of separator characters, the
semantics of the JavaScript `split(SEP_PATTERN)` call of the source's
`split`: boundary separators produce empty pieces, and the empty input
produces one empty piece. -/
def jsSplitRuns (sep : Char → Bool) (l : List Char) : List String :=
  jsSplitAux sep false [] l

/-- Strip one leading and one trailing run of separators, the semantics of
the source's `path.replace(new RegExp("^sep+|sep+$", "g"), "")`. -/
def stripSeps (w : Bool) (l : List Char) : List Char :=
  (((l.dropWhile (isSepChar w)).reverse.dropWhile (isSepChar w))).reverse

/-- The raw segment list of a path: strip boundary separators, then split
on separator runs. -/
def rawSegs (w : Bool) (p : String) : List String :=
  jsSplitRuns (isSepChar w) (stripSeps w p.data)

/-- The source's `split`: decompose a path into segments, an absolute
flag, a trailing-separator flag, and (Windows absolute paths only) the
shifted-off root token. -/
def split (w : Bool) (p : String) : SplitPath :=
  let segs := rawSegs w p
  let abs := isAbsoluteModel w p
  let shiftRoot := w && abs
  { segments := if shiftRoot then segs.tail else segs
    isAbsolute := abs
    hasTrailingSep :=
      match p.data.getLast? with
      | some c => isSepChar w c
      | none => false
    winRoot := if shiftRoot then segs.head? else none }

/-! ### The walker model

`walk` / `walkSync` of `fs/walk.ts` are outside the sources at hand;
they are modelled from the spec's contract: a lazy, unordered sequence of
the subtree's entries, with `maxDepth`, `includeFiles`, `match` and `skip`
filters, where a `skip` pattern suppresses a matching entry and, for a
directory, all of its descendants. -/

/-- Walker options, as consumed by the engine. -/
structure WalkOptionsM where
  maxDepth : Option Nat
  includeFiles : Bool
  includeDirs : Bool
  matchPats : Option (List GlobMatcher)
  skip : List GlobMatcher

/-- The character list `root` must be extended with to reach its children:
`root` followed by a separator (no doubling for the bare root). -/
def childPreChars (root : String) : List Char :=
  if root.data.getLast? = some '/' then root.data else root.data ++ ['/']

/-- Depth of `p` inside the subtree rooted at `root`: `some 0` for the
root itself, `some (k+1)` for a node `k+1` levels below, `none` outside
the subtree. -/
def relDepth (root p : String) : Option Nat :=
  if p = root then some 0
  else
    let pre := childPreChars root
    if pre.isPrefixOf p.data && pre.length < p.data.length then
      some (1 + (p.data.drop pre.length).count '/')
    else none

/-- Append one segment to a path with a separator (no doubling after the
bare root). -/
def extendPath (a s : String) : String :=
  if a.data.getLast? = some '/' then a ++ s else a ++ "/" ++ s

/-- The chain of paths from `cur` through successive extensions by the
given segments, including both endpoints. -/
def chainFrom (cur : String) : List String → List String
  | [] => [cur]
  | s :: rest => cur :: chainFrom (extendPath cur s) rest

/-- All prefix paths from `root` down to `p` (inclusive), used to decide
whether some ancestor of an entry is suppressed by a skip pattern. -/
def chainPaths (root p : String) : List String :=
  if p = root then [root]
  else
    let pre := childPreChars root
    if pre.isPrefixOf p.data && pre.length < p.data.length then
      chainFrom root (splitCharList '/' [] (p.data.drop pre.length))
    else [p]

/-- The admission condition of the modelled walker: inside the subtree,
within the depth bound, of an included kind, matching the match patterns,
and with no skip pattern matching the entry or any of its ancestor paths
within the walk. -/
def walkCond (root : String) (o : WalkOptionsM) (pr : String × Bool) : Bool :=
  match relDepth root pr.1 with
  | none => false
  | some d =>
    (match o.maxDepth with
     | some m => decide (d ≤ m)
     | none => true)
      && (if pr.2 then o.includeDirs else o.includeFiles)
      && (match o.matchPats with
          | some ms => ms.any (fun pat => pat pr.1)
          | none => true)
      && (!(o.skip.any (fun pat => pat pr.1)))
      && ((chainPaths root pr.1).all
          (fun q => !(o.skip.any (fun pat => pat q))))

/-- Modelled from the spec: the walker.  It lists, in the (unspecified)
order of the filesystem's entry list, every node of the subtree rooted at
`root` that passes the admission condition. -/
def walk (fs : Fs) (root : String) (o : WalkOptionsM) : List WalkEntry :=
  fs.entries.filterMap (fun pr =>
    if walkCond root o pr then some { path := pr.1, isDirectory := pr.2 }
    else none)

/-! ### Sorting and deduplication -/

/-- Lexicographic comparison of character lists, the model of JavaScript
string comparison used by the source's `comparePath`. -/
def charListLt : List Char → List Char → Bool
  | [], [] => false
  | [], _ :: _ => true
  | _ :: _, [] => false
  | a :: as, b :: bs =>
    if a < b then true else if b < a then false else charListLt as bs

/-- String comparison by characters (JavaScript `<` on strings). -/
def strLtB (a b : String) : Bool := charListLt a.data b.data

/-- The source's `comparePath`: order `WalkEntry` values by their path
strings. -/
def comparePath (a b : WalkEntry) : Int :=
  if strLtB a.path b.path then -1
  else if strLtB b.path a.path then 1
  else 0

/-- Insert an entry into a list sorted by `comparePath`. -/
def insertSorted (e : WalkEntry) : List WalkEntry → List WalkEntry
  | [] => [e]
  | x :: xs =>
    if comparePath e x ≤ 0 then e :: x :: xs else x :: insertSorted e xs

/-- Sorting by `comparePath`, the model of the source's
`.sort(comparePath)` on the deduplicated working set. -/
def sortByPath (l : List WalkEntry) : List WalkEntry :=
  l.foldr insertSorted []

/-- One `Map.set` step of the source: an existing key keeps its insertion
position but takes the new value; a new key is appended. -/
def insertByPath (m : List WalkEntry) (e : WalkEntry) : List WalkEntry :=
  if m.any (fun x => x.path = e.path) then
    m.map (fun x => if x.path = e.path then e else x)
  else m ++ [e]

/-- The source's `nextMatchMap`: deduplicate a list of entries by path,
keeping Map insertion order. -/
def dedupByPath (l : List WalkEntry) : List WalkEntry :=
  l.foldl insertByPath []

/-! ### The expansion engine -/

/-- The `ExpandGlobOptions` of the source, with its documented defaults
(`root` defaults to the current working directory). -/
structure ExpandGlobOptionsM where
  root : Option String := none
  exclude : List String := []
  includeDirs : Bool := true
  extended : Bool := false
  globstar : Bool := false

/-- The `GlobOptions` value the engine builds from its options. -/
def globOptsOf (o : ExpandGlobOptionsM) : GlobOptionsM :=
  { extended := o.extended, globstar := o.globstar }

/-- The engine's `absRoot`: the root option resolved against the working
directory. -/
def absRootOf (cwd : String) (o : ExpandGlobOptionsM) : String :=
  let root := o.root.getD cwd
  if isAbsoluteModel false root then normalizeAbs false root
  else joinGlobsModel (globOptsOf o).globstar cwd root

/-- The engine's `resolveFromRoot`: resolve a path against `absRoot`. -/
def resolveFromRoot (cwd : String) (o : ExpandGlobOptionsM) (p : String) :
    String :=
  if isAbsoluteModel false p then normalizeAbs false p
  else joinGlobsModel (globOptsOf o).globstar (absRootOf cwd o) p

/-- The engine's `excludePatterns`: each exclude glob resolved from the
root and compiled. -/
def excludePatternsOf (compile : GlobCompiler) (cwd : String)
    (o : ExpandGlobOptionsM) : List GlobMatcher :=
  (o.exclude.map (resolveFromRoot cwd o)).map
    (fun s => compile s (globOptsOf o))

/-- The engine's `shouldInclude`: true iff no exclude pattern matches. -/
def shouldInclude (excl : List GlobMatcher) (p : String) : Bool :=
  !(excl.any (fun pat => pat p))

/-- The `SplitPath` of the resolved glob (the engine runs with the POSIX
path grammar, `isWindows = false`). -/
def splitOf (cwd : String) (glob : String) (o : ExpandGlobOptionsM) :
    SplitPath :=
  split false (resolveFromRoot cwd o glob)

/-- The loop consuming leading non-glob segments into the fixed root by
pure string joining. -/
def consumeFixed (globstar : Bool) (fixedRoot : String) :
    List String → String × List String
  | [] => (fixedRoot, [])
  | s :: rest =>
    if isGlobSeg s then (fixedRoot, s :: rest)
    else consumeFixed globstar (joinGlobsModel globstar fixedRoot s) rest

/-- Fixed root paired with the remaining (glob) segments. -/
def fixedPairOf (cwd : String) (glob : String) (o : ExpandGlobOptionsM) :
    String × List String :=
  let sp := splitOf cwd glob o
  consumeFixed (globOptsOf o).globstar (sp.winRoot.getD "/") sp.segments

/-- The engine's `fixedRoot`. -/
def fixedRootOf (cwd : String) (glob : String) (o : ExpandGlobOptionsM) :
    String :=
  (fixedPairOf cwd glob o).1

/-- The segments remaining after fixed-root consumption. -/
def remainingSegsOf (cwd : String) (glob : String) (o : ExpandGlobOptionsM) :
    List String :=
  (fixedPairOf cwd glob o).2

/-- The source's `advanceMatch`: produce the entries one segment deeper
than `walkInfo` that satisfy `globSegment`.  A non-directory entry
produces nothing; `..` stats the parent (behind `shouldInclude`,
swallowing NotFound); `**` delegates to the unbounded walker with files
excluded; any other segment delegates to the depth-1 walker with a
compiled match pattern. -/
def advanceMatch (compile : GlobCompiler) (g : GlobOptionsM)
    (excl : List GlobMatcher) (fs : Fs) (walkInfo : WalkEntry)
    (globSegment : String) : Except FsError (List WalkEntry) :=
  if walkInfo.isDirectory = false then .ok []
  else if globSegment = ".." then
    if shouldInclude excl (joinGlobsModel g.globstar walkInfo.path "..") then
      match createWalkEntry fs (joinGlobsModel g.globstar walkInfo.path "..") with
      | .ok w => .ok [w]
      | .error .notFound => .ok []
      | .error e => .error e
    else .ok []
  else if globSegment = "**" then
    .ok (walk fs walkInfo.path
      { maxDepth := none, includeFiles := false, includeDirs := true
        matchPats := none, skip := excl })
  else
    .ok (walk fs walkInfo.path
      { maxDepth := some 1, includeFiles := true, includeDirs := true
        matchPats :=
          some [compile (joinGlobsModel g.globstar walkInfo.path globSegment) g]
        skip := excl })

/-- Collect the `advanceMatch` results of every current match in order,
propagating the first error. -/
def collectAdvance (compile : GlobCompiler) (g : GlobOptionsM)
    (excl : List GlobMatcher) (fs : Fs) (segment : String) :
    List WalkEntry → Except FsError (List WalkEntry)
  | [] => .ok []
  | m :: rest =>
    match advanceMatch compile g excl fs m segment with
    | .error e => .error e
    | .ok r =>
      match collectAdvance compile g excl fs segment rest with
      | .error e => .error e
      | .ok acc => .ok (r ++ acc)

/-- One iteration of the engine's segment loop: advance every current
match, deduplicate by path through the `nextMatchMap`, and sort. -/
def stepSegment (compile : GlobCompiler) (g : GlobOptionsM)
    (excl : List GlobMatcher) (fs : Fs) (ms : List WalkEntry)
    (segment : String) : Except FsError (List WalkEntry) :=
  match collectAdvance compile g excl fs segment ms with
  | .error e => .error e
  | .ok all => .ok (sortByPath (dedupByPath all))

/-- The engine's segment loop over the remaining segments. -/
def foldSegments (compile : GlobCompiler) (g : GlobOptionsM)
    (excl : List GlobMatcher) (fs : Fs) (ms : List WalkEntry) :
    List String → Except FsError (List WalkEntry)
  | [] => .ok ms
  | seg :: rest =>
    match stepSegment compile g excl fs ms seg with
    | .error e => .error e
    | .ok next => foldSegments compile g excl fs next rest

/-- The engine's two final filters: a trailing separator keeps only
directories, then `includeDirs = false` drops directories. -/
def dirOnlyFilter (hasTrailingSep : Bool) (l : List WalkEntry) :
    List WalkEntry :=
  if hasTrailingSep then l.filter (fun e => e.isDirectory) else l

def applyFilters (hasTrailingSep includeDirs : Bool)
    (l : List WalkEntry) : List WalkEntry :=
  if includeDirs = false then
    (dirOnlyFilter hasTrailingSep l).filter (fun e => !e.isDirectory)
  else dirOnlyFilter hasTrailingSep l

/-- The source's `expandGlob`: expand the glob string from the root
directory, producing the final sequence of entries (or the first
propagated non-NotFound error). -/
def expandGlob (compile : GlobCompiler) (cwd : String) (fs : Fs)
    (glob : String) (o : ExpandGlobOptionsM) :
    Except FsError (List WalkEntry) :=
  match createWalkEntry fs (fixedPairOf cwd glob o).1 with
  | .error .notFound => .ok []
  | .error e => .error e
  | .ok fixedRootInfo =>
    match foldSegments compile (globOptsOf o) (excludePatternsOf compile cwd o)
        fs [fixedRootInfo] (fixedPairOf cwd glob o).2 with
    | .error e => .error e
    | .ok final =>
      .ok (applyFilters (splitOf cwd glob o).hasTrailingSep o.includeDirs final)

/-- Modelled from the spec: the synchronous walker, identical apart from
blocking. -/
def walkSync (fs : Fs) (root : String) (o : WalkOptionsM) : List WalkEntry :=
  fs.entries.filterMap (fun pr =>
    if walkCond root o pr then some { path := pr.1, isDirectory := pr.2 }
    else none)

/-- The inner `advanceMatch` of the source's `expandGlobSync`, the
blocking twin of the asynchronous one. -/
def advanceMatchSync (compile : GlobCompiler) (g : GlobOptionsM)
    (excl : List GlobMatcher) (fs : Fs) (walkInfo : WalkEntry)
    (globSegment : String) : Except FsError (List WalkEntry) :=
  if walkInfo.isDirectory = false then .ok []
  else if globSegment = ".." then
    if shouldInclude excl (joinGlobsModel g.globstar walkInfo.path "..") then
      match createWalkEntrySync fs (joinGlobsModel g.globstar walkInfo.path "..") with
      | .ok w => .ok [w]
      | .error .notFound => .ok []
      | .error e => .error e
    else .ok []
  else if globSegment = "**" then
    .ok (walkSync fs walkInfo.path
      { maxDepth := none, includeFiles := false, includeDirs := true
        matchPats := none, skip := excl })
  else
    .ok (walkSync fs walkInfo.path
      { maxDepth := some 1, includeFiles := true, includeDirs := true
        matchPats :=
          some [compile (joinGlobsModel g.globstar walkInfo.path globSegment) g]
        skip := excl })

/-- The blocking collection loop of `expandGlobSync`. -/
def collectAdvanceSync (compile : GlobCompiler) (g : GlobOptionsM)
    (excl : List GlobMatcher) (fs : Fs) (segment : String) :
    List WalkEntry → Except FsError (List WalkEntry)
  | [] => .ok []
  | m :: rest =>
    match advanceMatchSync compile g excl fs m segment with
    | .error e => .error e
    | .ok r =>
      match collectAdvanceSync compile g excl fs segment rest with
      | .error e => .error e
      | .ok acc => .ok (r ++ acc)

/-- One segment iteration of `expandGlobSync`. -/
def stepSegmentSync (compile : GlobCompiler) (g : GlobOptionsM)
    (excl : List GlobMatcher) (fs : Fs) (ms : List WalkEntry)
    (segment : String) : Except FsError (List WalkEntry) :=
  match collectAdvanceSync compile g excl fs segment ms with
  | .error e => .error e
  | .ok all => .ok (sortByPath (dedupByPath all))

/-- The segment loop of `expandGlobSync`. -/
def foldSegmentsSync (compile : GlobCompiler) (g : GlobOptionsM)
    (excl : List GlobMatcher) (fs : Fs) (ms : List WalkEntry) :
    List String → Except FsError (List WalkEntry)
  | [] => .ok ms
  | seg :: rest =>
    match stepSegmentSync compile g excl fs ms seg with
    | .error e => .error e
    | .ok next => foldSegmentsSync compile g excl fs next rest

/-- The source's `expandGlobSync`: the blocking twin of `expandGlob`,
identical apart from awaiting the filesystem primitives. -/
def expandGlobSync (compile : GlobCompiler) (cwd : String) (fs : Fs)
    (glob : String) (o : ExpandGlobOptionsM) :
    Except FsError (List WalkEntry) :=
  match createWalkEntrySync fs (fixedPairOf cwd glob o).1 with
  | .error .notFound => .ok []
  | .error e => .error e
  | .ok fixedRootInfo =>
    match foldSegmentsSync compile (globOptsOf o)
        (excludePatternsOf compile cwd o) fs [fixedRootInfo]
        (fixedPairOf cwd glob o).2 with
    | .error e => .error e
    | .ok final =>
      .ok (applyFilters (splitOf cwd glob o).hasTrailingSep o.includeDirs final)

/-! ### Concrete instances used to exercise the definitions

A small executable pattern compiler (`*` matches any character sequence,
all other characters literally) and sample filesystem trees. -/

/-- Fuelled matcher core: the fuel only bounds the recursion depth and is
always ample when called through `simpleGlobMatch`. -/
def simpleGlobFuel : Nat → List Char → List Char → Bool
  | 0, _, _ => false
  | _ + 1, [], [] => true
  | _ + 1, [], _ :: _ => false
  | f + 1, '*' :: ps, l =>
    simpleGlobFuel f ps l ||
      (match l with
       | [] => false
       | _ :: t => simpleGlobFuel f ('*' :: ps) t)
  | f + 1, p :: ps, c :: cs => p = c && simpleGlobFuel f ps cs
  | _ + 1, _ :: _, [] => false

/-- A concrete glob matcher: `*` matches any character sequence, every
other character matches itself. -/
def simpleGlobMatch (pat p : String) : Bool :=
  simpleGlobFuel (pat.data.length + p.data.length + 1) pat.data p.data

/-- A concrete pattern compiler instantiating the abstract one. -/
def simpleCompile : GlobCompiler := fun pat _ => fun p => simpleGlobMatch pat p

/-- Sample tree: `/a` with two files, a subdirectory and a nested file. -/
def fsDemo : Fs :=
  { entries := [("/a", true), ("/a/b.ts", false), ("/a/c.txt", false),
      ("/a/x", true), ("/a/x/y.ts", false)]
    errPaths := [] }

/-- The entries of `fsDemo` listed in a different order. -/
def fsDemoRev : List (String × Bool) :=
  [("/a/x/y.ts", false), ("/a/x", true), ("/a/c.txt", false),
    ("/a/b.ts", false), ("/a", true)]

/-- Sample tree with two nested directories. -/
def fsTwoDirs : Fs :=
  { entries := [("/a", true), ("/a/b", true)], errPaths := [] }

/-- Sample tree three directories deep. -/
def fsDeep : Fs :=
  { entries := [("/a", true), ("/a/b", true), ("/a/b/c", true)]
    errPaths := [] }

/-- Empty tree whose stat of `/x` raises a non-NotFound error. -/
def fsErr : Fs := { entries := [], errPaths := ["/x"] }

/-- Paths of a list of entries, in order. -/
def pathsOf (l : List WalkEntry) : List String := l.map WalkEntry.path

/-- The filesystem's path keys are distinct (a well-formed tree). -/
abbrev Fs.NodupKeys (fs : Fs) : Prop := (fs.entries.map Prod.fst).Nodup

/-- An entry is canonical for a filesystem when it is exactly the node the
filesystem holds at its path. -/
def Canon (fs : Fs) (e : WalkEntry) : Prop :=
  fs.statKind e.path = some e.isDirectory

/-- Relation between the results of one engine step on two filesystems
whose entry lists are permutations: equal errors, or permuted outputs. -/
def ExceptPerm :
    Except FsError (List WalkEntry) → Except FsError (List WalkEntry) → Prop
  | .ok l₁, .ok l₂ => l₁.Perm l₂
  | .error e₁, .error e₂ => e₁ = e₂
  | _, _ => False

/-! ### Order theory of the path comparison -/

theorem charListLt_irrefl (a : List Char) : charListLt a a = false := by
  induction a with
  | nil => rfl
  | cons x xs ih => simp [charListLt, lt_irrefl, ih]

theorem charListLt_asymm (a b : List Char) (h : charListLt a b = true) :
    charListLt b a = false := by
  induction a generalizing b with
  | nil =>
    cases b with
    | nil => simp [charListLt] at h
    | cons y ys => simp [charListLt]
  | cons x xs ih =>
    cases b with
    | nil => simp [charListLt] at h
    | cons y ys =>
      simp only [charListLt] at h ⊢
      by_cases h1 : x < y
      · rw [if_neg (lt_asymm h1), if_pos h1]
      · rw [if_neg h1] at h
        by_cases h2 : y < x
        · rw [if_pos h2] at h; exact absurd h (by simp)
        · rw [if_neg h2] at h
          rw [if_neg h2, if_neg h1]
          exact ih ys h

theorem charListLt_conn (a b : List Char) (h1 : charListLt a b = false)
    (h2 : charListLt b a = false) : a = b := by
  induction a generalizing b with
  | nil =>
    cases b with
    | nil => rfl
    | cons y ys => simp [charListLt] at h1
  | cons x xs ih =>
    cases b with
    | nil => simp [charListLt] at h2
    | cons y ys =>
      simp only [charListLt] at h1 h2
      by_cases hxy : x < y
      · rw [if_pos hxy] at h1; exact absurd h1 (by simp)
      · rw [if_neg hxy] at h1
        by_cases hyx : y < x
        · rw [if_pos hyx] at h2; exact absurd h2 (by simp)
        · rw [if_neg hyx] at h1 h2
          rw [if_neg hxy] at h2
          have hx : x = y := le_antisymm (not_lt.mp hyx) (not_lt.mp hxy)
          rw [hx, ih ys h1 h2]

theorem charListLt_trans (a b c : List Char) (h1 : charListLt a b = true)
    (h2 : charListLt b c = true) : charListLt a c = true := by
  induction a generalizing b c with
  | nil =>
    cases c with
    | nil =>
      cases b with
      | nil => simp [charListLt] at h1
      | cons y ys => simp [charListLt] at h2
    | cons z zs => simp [charListLt]
  | cons x xs ih =>
    cases b with
    | nil => simp [charListLt] at h1
    | cons y ys =>
      cases c with
      | nil => simp [charListLt] at h2
      | cons z zs =>
        simp only [charListLt] at h1 h2 ⊢
        by_cases hxy : x < y
        · rw [if_pos hxy] at h1
          by_cases hyz : y < z
          · rw [if_pos (lt_trans hxy hyz)]
          · rw [if_neg hyz] at h2
            by_cases hzy : z < y
            · rw [if_pos hzy] at h2; exact absurd h2 (by simp)
            · have : y = z := le_antisymm (not_lt.mp hzy) (not_lt.mp hyz)
              rw [if_pos (this ▸ hxy)]
        · rw [if_neg hxy] at h1
          by_cases hyx : y < x
          · rw [if_pos hyx] at h1; exact absurd h1 (by simp)
          · rw [if_neg hyx] at h1
            have hxy' : x = y := le_antisymm (not_lt.mp hyx) (not_lt.mp hxy)
            by_cases hyz : y < z
            · rw [if_pos (hxy' ▸ hyz)]
            · rw [if_neg hyz] at h2
              by_cases hzy : z < y
              · rw [if_pos hzy] at h2; exact absurd h2 (by simp)
              · rw [if_neg hzy] at h2
                subst hxy'
                rw [if_neg hyz, if_neg hzy]
                exact ih ys zs h1 h2

theorem str_eq_of_data_eq {a b : String} (h : a.data = b.data) : a = b := by
  cases a
  cases b
  exact congrArg String.mk h

theorem strLtB_irrefl (a : String) : strLtB a a = false :=
  charListLt_irrefl a.data

theorem strLtB_asymm {a b : String} (h : strLtB a b = true) :
    strLtB b a = false :=
  charListLt_asymm a.data b.data h

theorem strLtB_conn {a b : String} (h1 : strLtB a b = false)
    (h2 : strLtB b a = false) : a = b :=
  str_eq_of_data_eq (charListLt_conn a.data b.data h1 h2)

theorem strLtB_trans {a b c : String} (h1 : strLtB a b = true)
    (h2 : strLtB b c = true) : strLtB a c = true :=
  charListLt_trans a.data b.data c.data h1 h2

/-- The non-strict entry order underlying the sorted working sets. -/
def entryLe (a b : WalkEntry) : Prop := strLtB b.path a.path = false

/-- The strict entry order: strictly ascending path strings. -/
def entryLt (a b : WalkEntry) : Prop := strLtB a.path b.path = true

instance : DecidablePred fun p : WalkEntry × WalkEntry => entryLe p.1 p.2 :=
  fun _ => instDecidableEqBool _ _

theorem entryLe_total (a b : WalkEntry) : entryLe a b ∨ entryLe b a := by
  unfold entryLe
  by_cases h : strLtB b.path a.path = true
  · exact Or.inr (strLtB_asymm h)
  · exact Or.inl (Bool.not_eq_true _ ▸ (by simpa using h))

theorem entryLe_trans {a b c : WalkEntry} (h1 : entryLe a b)
    (h2 : entryLe b c) : entryLe a c := by
  unfold entryLe at h1 h2 ⊢
  by_cases h : strLtB c.path a.path = true
  · by_cases hab : strLtB a.path b.path = true
    · rw [strLtB_trans h hab] at h2
      exact absurd h2 (by simp)
    · have heq : a.path = b.path := strLtB_conn (by simpa using hab) h1
      rw [heq] at h
      rw [h] at h2
      exact absurd h2 (by simp)
  · simpa using h

theorem entryLt_of_le_of_ne {a b : WalkEntry} (h : entryLe a b)
    (hne : a.path ≠ b.path) : entryLt a b := by
  unfold entryLe at h
  unfold entryLt
  by_cases hl : strLtB a.path b.path = true
  · exact hl
  · exact absurd (strLtB_conn (by simpa using hl) h) hne

theorem entryLt_asymm {a b : WalkEntry} (h1 : entryLt a b)
    (h2 : entryLt b a) : False := by
  unfold entryLt at h1 h2
  rw [strLtB_asymm h1] at h2
  exact absurd h2 (by simp)

instance : IsAntisymm WalkEntry entryLt :=
  ⟨fun _ _ h1 h2 => absurd (entryLt_asymm h1 h2) not_false⟩

theorem comparePath_le_zero_iff (e x : WalkEntry) :
    comparePath e x ≤ 0 ↔ entryLe e x := by
  unfold comparePath entryLe
  by_cases h1 : strLtB e.path x.path = true
  · simp [h1, strLtB_asymm h1]
  · rw [if_neg h1]
    by_cases h2 : strLtB x.path e.path = true
    · simp [h2]
    · simp only [h2, if_false]
      simp only [Bool.not_eq_true] at h2
      simp [h2]

/-! ### Sorting lemmas -/

theorem insertSorted_perm (e : WalkEntry) (l : List WalkEntry) :
    (insertSorted e l).Perm (e :: l) := by
  induction l with
  | nil => exact List.Perm.refl _
  | cons x xs ih =>
    unfold insertSorted
    split
    · exact List.Perm.refl _
    · exact (List.Perm.cons x ih).trans (List.Perm.swap e x xs)

theorem mem_insertSorted {e x : WalkEntry} {l : List WalkEntry}
    (h : x ∈ insertSorted e l) : x = e ∨ x ∈ l := by
  have := (insertSorted_perm e l).mem_iff.mp h
  simpa using this

theorem insertSorted_pairwise (e : WalkEntry) (l : List WalkEntry)
    (h : List.Pairwise entryLe l) :
    List.Pairwise entryLe (insertSorted e l) := by
  induction l with
  | nil => simp [insertSorted]
  | cons x xs ih =>
    unfold insertSorted
    split
    · next hc =>
      have hex : entryLe e x := (comparePath_le_zero_iff e x).mp hc
      refine List.Pairwise.cons ?_ h
      intro y hy
      rcases List.mem_cons.mp hy with rfl | hy
      · exact hex
      · exact entryLe_trans hex (List.rel_of_pairwise_cons h hy)
    · next hc =>
      have hne : ¬ entryLe e x :=
        fun hle => hc ((comparePath_le_zero_iff e x).mpr hle)
      have hxe : entryLe x e := (entryLe_total e x).resolve_left hne
      have htail : List.Pairwise entryLe xs := List.Pairwise.of_cons h
      refine List.Pairwise.cons ?_ (ih htail)
      intro y hy
      rcases mem_insertSorted hy with rfl | hy
      · exact hxe
      · exact List.rel_of_pairwise_cons h hy

theorem sortByPath_perm (l : List WalkEntry) : (sortByPath l).Perm l := by
  induction l with
  | nil => exact List.Perm.refl _
  | cons x xs ih =>
    have hstep : sortByPath (x :: xs) = insertSorted x (sortByPath xs) := rfl
    rw [hstep]
    exact (insertSorted_perm x (sortByPath xs)).trans (List.Perm.cons x ih)

theorem sortByPath_pairwise (l : List WalkEntry) :
    List.Pairwise entryLe (sortByPath l) := by
  induction l with
  | nil => simp [sortByPath]
  | cons x xs ih => exact insertSorted_pairwise x (sortByPath xs) ih

theorem pathsOf_nodup_of_perm {l l' : List WalkEntry} (h : l.Perm l')
    (hn : (pathsOf l).Nodup) : (pathsOf l').Nodup :=
  (h.map WalkEntry.path).nodup hn

theorem pairwise_lt_of_le_nodup {l : List WalkEntry}
    (hle : List.Pairwise entryLe l) (hn : (pathsOf l).Nodup) :
    List.Pairwise entryLt l := by
  have hne : List.Pairwise (fun a b : WalkEntry => a.path ≠ b.path) l :=
    List.pairwise_map.mp hn
  exact (hle.and hne).imp (fun h => entryLt_of_le_of_ne h.1 h.2)

theorem sorted_eq_of_perm {l₁ l₂ : List WalkEntry} (hp : l₁.Perm l₂)
    (h1 : List.Pairwise entryLt l₁) (h2 : List.Pairwise entryLt l₂) :
    l₁ = l₂ :=
  List.eq_of_perm_of_sorted hp h1 h2

/-! ### Canonical entries and stat lookups -/

theorem canon_eq {fs : Fs} {a b : WalkEntry} (ha : Canon fs a)
    (hb : Canon fs b) (h : a.path = b.path) : a = b := by
  unfold Canon at ha hb
  rw [h] at ha
  cases a
  cases b
  simp only at h
  rw [ha] at hb
  simp only [Option.some.injEq] at hb
  simp [h, hb]

theorem find?_keyed {l : List (String × Bool)}
    (h : (l.map Prod.fst).Nodup) {p : String} {d : Bool} :
    (l.find? (fun q => q.1 = p)).map (fun q => q.2) = some d ↔ (p, d) ∈ l := by
  induction l with
  | nil => simp
  | cons a t ih =>
    simp only [List.map_cons, List.nodup_cons] at h
    by_cases ha : a.1 = p
    · rw [List.find?_cons_of_pos _ (by simpa using ha)]
      simp only [Option.map_some', Option.some.injEq, List.mem_cons]
      constructor
      · intro hd
        left
        rw [← ha, ← hd]
      · rintro (heq | hmem)
        · rw [← heq]
        · exact absurd (ha ▸ List.mem_map_of_mem Prod.fst hmem) h.1
    · rw [List.find?_cons_of_neg _ (by simpa using ha)]
      rw [ih h.2]
      simp only [List.mem_cons]
      constructor
      · exact Or.inr
      · rintro (heq | hmem)
        · exact absurd (congrArg Prod.fst heq.symm) ha
        · exact hmem

theorem statKind_eq_some_iff {fs : Fs} (h : fs.NodupKeys) {p : String}
    {d : Bool} : fs.statKind p = some d ↔ (p, d) ∈ fs.entries :=
  find?_keyed h

theorem statKind_none_iff {fs : Fs} {p : String} :
    fs.statKind p = none ↔ p ∉ fs.entries.map Prod.fst := by
  unfold Fs.statKind
  rw [Option.map_eq_none', List.find?_eq_none]
  constructor
  · intro h hmem
    obtain ⟨q, hq, hfst⟩ := List.mem_map.mp hmem
    exact absurd (by simpa using hfst) (by simpa using h q hq)
  · intro h q hq
    simp only [decide_eq_true_eq]
    intro hq1
    exact h (List.mem_map.mpr ⟨q, hq, hq1⟩)

theorem statKind_perm {es' : List (String × Bool)} {err : List String}
    (fs : Fs) (h : fs.NodupKeys) (hp : es'.Perm fs.entries) (p : String) :
    Fs.statKind { entries := es', errPaths := err } p = fs.statKind p := by
  have h' : (Fs.mk es' err).NodupKeys :=
    ((hp.map Prod.fst).symm).nodup h
  cases hk : fs.statKind p with
  | some d =>
    have hk' : (p, d) ∈ fs.entries := (statKind_eq_some_iff h).mp hk
    exact (statKind_eq_some_iff h').mpr (hp.mem_iff.mpr hk')
  | none =>
    rw [statKind_none_iff] at hk ⊢
    intro hmem
    exact hk ((hp.map Prod.fst).mem_iff.mp hmem)

theorem createWalkEntry_perm {es' : List (String × Bool)} (fs : Fs)
    (h : fs.NodupKeys) (hp : es'.Perm fs.entries) (p : String) :
    createWalkEntry { entries := es', errPaths := fs.errPaths } p =
      createWalkEntry fs p := by
  unfold createWalkEntry
  rw [statKind_perm fs h hp p]

theorem createWalkEntry_canon {fs : Fs} {p : String} {e : WalkEntry}
    (h : createWalkEntry fs p = .ok e) : Canon fs e := by
  unfold createWalkEntry at h
  split at h
  · exact absurd h (by simp)
  · unfold Canon
    split at h
    · next d hd =>
      simp only [Except.ok.injEq] at h
      rw [← h]
      exact hd
    · exact absurd h (by simp)

/-! ### Deduplication lemmas -/

theorem pathsOf_insertByPath (m : List WalkEntry) (e : WalkEntry) :
    pathsOf (insertByPath m e) =
      if m.any (fun x => x.path = e.path) then pathsOf m
      else pathsOf m ++ [e.path] := by
  unfold insertByPath pathsOf
  split
  · simp only [List.map_map]
    apply List.map_congr_left
    intro x _
    simp only [Function.comp_apply]
    split
    · next hx => exact hx.symm
    · rfl
  · simp

theorem insertByPath_nodup (m : List WalkEntry) (e : WalkEntry)
    (h : (pathsOf m).Nodup) : (pathsOf (insertByPath m e)).Nodup := by
  rw [pathsOf_insertByPath]
  split
  · exact h
  · next hc =>
    have hmem : e.path ∉ pathsOf m := by
      intro hin
      obtain ⟨x, hx, hpx⟩ := List.mem_map.mp hin
      exact hc (List.any_eq_true.mpr ⟨x, hx, by simp [hpx]⟩)
    simp [List.nodup_append, h, hmem]

theorem mem_insertByPath {m : List WalkEntry} {e x : WalkEntry}
    (h : x ∈ insertByPath m e) : x ∈ m ∨ x = e := by
  unfold insertByPath at h
  split at h
  · rw [List.mem_map] at h
    obtain ⟨y, hy, heq⟩ := h
    by_cases hp : y.path = e.path
    · rw [if_pos hp] at heq
      exact Or.inr heq.symm
    · rw [if_neg hp] at heq
      exact Or.inl (heq ▸ hy)
  · rcases List.mem_append.mp h with h | h
    · exact Or.inl h
    · exact Or.inr (List.mem_singleton.mp h)

theorem self_mem_insertByPath (m : List WalkEntry) (e : WalkEntry) :
    e ∈ insertByPath m e := by
  unfold insertByPath
  split
  · next hc =>
    obtain ⟨y, hy, hp⟩ := List.any_eq_true.mp hc
    rw [List.mem_map]
    exact ⟨y, hy, by rw [if_pos (by simpa using hp)]⟩
  · simp

theorem paths_mem_insertByPath {m : List WalkEntry} {e : WalkEntry}
    {p : String} :
    p ∈ pathsOf (insertByPath m e) ↔ p ∈ pathsOf m ∨ p = e.path := by
  rw [pathsOf_insertByPath]
  split
  · next hc =>
    obtain ⟨y, hy, hp⟩ := List.any_eq_true.mp hc
    have hep : e.path ∈ pathsOf m := by
      simp only [pathsOf, List.mem_map]
      exact ⟨y, hy, by simpa using hp⟩
    constructor
    · exact Or.inl
    · rintro (h | rfl)
      · exact h
      · exact hep
  · simp

theorem mem_insertByPath_of_canon {fs : Fs} {m : List WalkEntry}
    {e x : WalkEntry} (hca : ∀ y ∈ m, Canon fs y) (hce : Canon fs e)
    (hx : x ∈ m) : x ∈ insertByPath m e := by
  unfold insertByPath
  split
  · rw [List.mem_map]
    refine ⟨x, hx, ?_⟩
    split
    · next hp => exact (canon_eq (hca x hx) hce hp).symm ▸ rfl
    · rfl
  · exact List.mem_append_left _ hx

theorem foldl_insert_nodup (l : List WalkEntry) (acc : List WalkEntry)
    (h : (pathsOf acc).Nodup) :
    (pathsOf (l.foldl insertByPath acc)).Nodup := by
  induction l generalizing acc with
  | nil => exact h
  | cons a t ih => exact ih _ (insertByPath_nodup acc a h)

theorem dedupByPath_nodup (l : List WalkEntry) :
    (pathsOf (dedupByPath l)).Nodup :=
  foldl_insert_nodup l [] (by simp [pathsOf])

theorem mem_foldl_insert {l acc : List WalkEntry} {x : WalkEntry}
    (h : x ∈ l.foldl insertByPath acc) : x ∈ acc ∨ x ∈ l := by
  induction l generalizing acc with
  | nil => exact Or.inl h
  | cons a t ih =>
    rcases ih h with h' | h'
    · rcases mem_insertByPath h' with h'' | h''
      · exact Or.inl h''
      · exact Or.inr (h'' ▸ List.mem_cons_self a t)
    · exact Or.inr (List.mem_cons_of_mem a h')

theorem mem_dedupByPath_sub {l : List WalkEntry} {x : WalkEntry}
    (h : x ∈ dedupByPath l) : x ∈ l := by
  rcases mem_foldl_insert h with h' | h'
  · exact absurd h' (List.not_mem_nil x)
  · exact h'

theorem mem_foldl_insert_of_canon {fs : Fs} {l acc : List WalkEntry}
    {x : WalkEntry} (hcl : ∀ y ∈ l, Canon fs y)
    (hcacc : ∀ y ∈ acc, Canon fs y) (hx : x ∈ acc ∨ x ∈ l) :
    x ∈ l.foldl insertByPath acc := by
  induction l generalizing acc with
  | nil => exact hx.resolve_right (fun h => absurd h (List.not_mem_nil x))
  | cons a t ih =>
    have hca : Canon fs a := hcl a (List.mem_cons_self a t)
    have hcins : ∀ y ∈ insertByPath acc a, Canon fs y := by
      intro y hy
      rcases mem_insertByPath hy with hy' | hy'
      · exact hcacc y hy'
      · exact hy' ▸ hca
    have hct : ∀ y ∈ t, Canon fs y :=
      fun y hy => hcl y (List.mem_cons_of_mem a hy)
    rcases hx with hx | hx
    · exact ih hct hcins (Or.inl (mem_insertByPath_of_canon hcacc hca hx))
    · rcases List.mem_cons.mp hx with rfl | hx
      · exact ih hct hcins (Or.inl (self_mem_insertByPath acc x))
      · exact ih hct hcins (Or.inr hx)

theorem mem_dedupByPath_iff {fs : Fs} {l : List WalkEntry} {x : WalkEntry}
    (hcl : ∀ y ∈ l, Canon fs y) : x ∈ dedupByPath l ↔ x ∈ l := by
  constructor
  · exact mem_dedupByPath_sub
  · intro h
    exact mem_foldl_insert_of_canon hcl (by simp) (Or.inr h)

theorem dedupByPath_perm {fs : Fs} {l₁ l₂ : List WalkEntry}
    (hp : l₁.Perm l₂) (hc : ∀ y ∈ l₁, Canon fs y) :
    (dedupByPath l₁).Perm (dedupByPath l₂) := by
  have hc₂ : ∀ y ∈ l₂, Canon fs y := fun y hy => hc y (hp.mem_iff.mpr hy)
  have hn₁ : (dedupByPath l₁).Nodup :=
    (dedupByPath_nodup l₁).of_map
  have hn₂ : (dedupByPath l₂).Nodup :=
    (dedupByPath_nodup l₂).of_map
  rw [List.perm_ext_iff_of_nodup hn₁ hn₂]
  intro a
  rw [mem_dedupByPath_iff hc, mem_dedupByPath_iff hc₂]
  exact hp.mem_iff

/-! ### Walker lemmas -/

theorem walkCond_skip {root : String} {o : WalkOptionsM}
    {pr : String × Bool} (h : walkCond root o pr = true) :
    (o.skip.any (fun pat => pat pr.1)) = false ∧
      ((chainPaths root pr.1).all
        (fun q => !(o.skip.any (fun pat => pat q)))) = true := by
  unfold walkCond at h
  split at h
  · exact absurd h (by simp)
  · simp only [Bool.and_eq_true, Bool.not_eq_true'] at h
    exact ⟨h.1.2, by simpa using h.2⟩

theorem walk_mem_entries {fs : Fs} {root : String} {o : WalkOptionsM}
    {e : WalkEntry} (h : e ∈ walk fs root o) :
    (e.path, e.isDirectory) ∈ fs.entries ∧
      walkCond root o (e.path, e.isDirectory) = true := by
  unfold walk at h
  rw [List.mem_filterMap] at h
  obtain ⟨pr, hpr, heq⟩ := h
  split at heq
  · next hcond =>
    simp only [Option.some.injEq] at heq
    have hpr1 : pr = (e.path, e.isDirectory) := by
      rw [← heq]
    rw [← hpr1]
    exact ⟨hpr, hcond⟩
  · exact absurd heq (by simp)

theorem walk_canon {fs : Fs} {root : String} {o : WalkOptionsM}
    {e : WalkEntry} (hn : fs.NodupKeys) (h : e ∈ walk fs root o) :
    Canon fs e :=
  (statKind_eq_some_iff hn).mpr (walk_mem_entries h).1

theorem walk_perm {es' : List (String × Bool)} {err : List String} (fs : Fs)
    (root : String) (o : WalkOptionsM) (hp : es'.Perm fs.entries) :
    (walk { entries := es', errPaths := err } root o).Perm (walk fs root o) :=
  hp.filterMap _

theorem walk_not_skipped {fs : Fs} {root : String} {o : WalkOptionsM}
    {e : WalkEntry} (h : e ∈ walk fs root o) :
    (∀ pat ∈ o.skip, pat e.path = false) ∧
      ∀ q ∈ chainPaths root e.path, ∀ pat ∈ o.skip, pat q = false := by
  have hc := (walk_mem_entries h).2
  obtain ⟨h1, h2⟩ := walkCond_skip hc
  constructor
  · intro pat hpat
    have := List.any_eq_false.mp h1 pat hpat
    simpa using this
  · intro q hq pat hpat
    have hall := List.all_eq_true.mp h2 q hq
    simp only [Bool.not_eq_true'] at hall
    have := List.any_eq_false.mp hall pat hpat
    simpa using this

theorem walk_mem_intro {fs : Fs} {root : String} {o : WalkOptionsM}
    {p : String} {d : Bool} (hmem : (p, d) ∈ fs.entries)
    (hcond : walkCond root o (p, d) = true) :
    ({ path := p, isDirectory := d } : WalkEntry) ∈ walk fs root o := by
  unfold walk
  rw [List.mem_filterMap]
  exact ⟨(p, d), hmem, by rw [if_pos hcond]⟩

/-! ### Advancement lemmas -/

theorem createWalkEntry_path {fs : Fs} {p : String} {e : WalkEntry}
    (h : createWalkEntry fs p = .ok e) : e.path = p := by
  unfold createWalkEntry at h
  split at h
  · exact absurd h (by simp)
  · split at h
    · simp only [Except.ok.injEq] at h
      rw [← h]
    · exact absurd h (by simp)

theorem shouldInclude_iff {excl : List GlobMatcher} {p : String} :
    shouldInclude excl p = true ↔ ∀ pat ∈ excl, pat p = false := by
  unfold shouldInclude
  rw [Bool.not_eq_true']
  rw [List.any_eq_false]
  constructor
  · intro h pat hpat
    simpa using h pat hpat
  · intro h pat hpat
    simpa using h pat hpat

theorem canon_perm_iff {es' : List (String × Bool)} (fs : Fs)
    (hn : fs.NodupKeys) (hp : es'.Perm fs.entries) (e : WalkEntry) :
    Canon { entries := es', errPaths := fs.errPaths } e ↔ Canon fs e := by
  unfold Canon
  rw [statKind_perm fs hn hp]

theorem exceptPerm_refl (x : Except FsError (List WalkEntry)) :
    ExceptPerm x x := by
  cases x with
  | ok l => exact List.Perm.refl l
  | error e => rfl

theorem advanceMatch_canon {compile : GlobCompiler} {g : GlobOptionsM}
    {excl : List GlobMatcher} {fs : Fs} {m : WalkEntry} {seg : String}
    {l : List WalkEntry} (hn : fs.NodupKeys)
    (h : advanceMatch compile g excl fs m seg = .ok l) :
    ∀ e ∈ l, Canon fs e := by
  unfold advanceMatch at h
  split at h
  · simp only [Except.ok.injEq] at h
    rw [← h]
    simp
  · split at h
    · split at h
      · split at h
        · next w hw =>
          simp only [Except.ok.injEq] at h
          rw [← h]
          intro e he
          rw [List.mem_singleton.mp he]
          exact createWalkEntry_canon hw
        · simp only [Except.ok.injEq] at h
          rw [← h]
          simp
        · exact absurd h (by simp)
      · simp only [Except.ok.injEq] at h
        rw [← h]
        simp
    · split at h
      · simp only [Except.ok.injEq] at h
        rw [← h]
        intro e he
        exact walk_canon hn he
      · simp only [Except.ok.injEq] at h
        rw [← h]
        intro e he
        exact walk_canon hn he

theorem advanceMatch_shouldInclude {compile : GlobCompiler}
    {g : GlobOptionsM} {excl : List GlobMatcher} {fs : Fs} {m : WalkEntry}
    {seg : String} {l : List WalkEntry}
    (h : advanceMatch compile g excl fs m seg = .ok l) :
    ∀ e ∈ l, shouldInclude excl e.path = true := by
  unfold advanceMatch at h
  split at h
  · simp only [Except.ok.injEq] at h
    rw [← h]
    simp
  · split at h
    · split at h
      · next hinc =>
        split at h
        · next w hw =>
          simp only [Except.ok.injEq] at h
          rw [← h]
          intro e he
          rw [List.mem_singleton.mp he, createWalkEntry_path hw]
          exact hinc
        · simp only [Except.ok.injEq] at h
          rw [← h]
          simp
        · exact absurd h (by simp)
      · simp only [Except.ok.injEq] at h
        rw [← h]
        simp
    · split at h
      · simp only [Except.ok.injEq] at h
        rw [← h]
        intro e he
        exact shouldInclude_iff.mpr (walk_not_skipped he).1
      · simp only [Except.ok.injEq] at h
        rw [← h]
        intro e he
        exact shouldInclude_iff.mpr (walk_not_skipped he).1

theorem advanceMatch_perm {compile : GlobCompiler} {g : GlobOptionsM}
    {excl : List GlobMatcher} {es' : List (String × Bool)} (fs : Fs)
    (hn : fs.NodupKeys) (hp : es'.Perm fs.entries) (m : WalkEntry)
    (seg : String) :
    ExceptPerm
      (advanceMatch compile g excl { entries := es', errPaths := fs.errPaths }
        m seg)
      (advanceMatch compile g excl fs m seg) := by
  unfold advanceMatch
  split
  · exact List.Perm.refl _
  · split
    · rw [createWalkEntry_perm fs hn hp]
      exact exceptPerm_refl _
    · split
      · exact walk_perm fs _ _ hp
      · exact walk_perm fs _ _ hp

theorem collectAdvance_perm {compile : GlobCompiler} {g : GlobOptionsM}
    {excl : List GlobMatcher} {es' : List (String × Bool)} (fs : Fs)
    (hn : fs.NodupKeys) (hp : es'.Perm fs.entries) (seg : String)
    (ms : List WalkEntry) :
    ExceptPerm
      (collectAdvance compile g excl
        { entries := es', errPaths := fs.errPaths } seg ms)
      (collectAdvance compile g excl fs seg ms) := by
  induction ms with
  | nil => exact List.Perm.refl _
  | cons m rest ih =>
    unfold collectAdvance
    have hadv := @advanceMatch_perm compile g excl es' fs hn hp m seg
    cases ha' : advanceMatch compile g excl
        { entries := es', errPaths := fs.errPaths } m seg with
    | error e' =>
      cases ha : advanceMatch compile g excl fs m seg with
      | error e =>
        rw [ha', ha] at hadv
        exact hadv
      | ok r =>
        rw [ha', ha] at hadv
        exact absurd hadv not_false
    | ok r' =>
      cases ha : advanceMatch compile g excl fs m seg with
      | error e =>
        rw [ha', ha] at hadv
        exact absurd hadv not_false
      | ok r =>
        rw [ha', ha] at hadv
        cases hc' : collectAdvance compile g excl
            { entries := es', errPaths := fs.errPaths } seg rest with
        | error e' =>
          cases hc : collectAdvance compile g excl fs seg rest with
          | error e =>
            rw [hc', hc] at ih
            exact ih
          | ok acc =>
            rw [hc', hc] at ih
            exact absurd ih not_false
        | ok acc' =>
          cases hc : collectAdvance compile g excl fs seg rest with
          | error e =>
            rw [hc', hc] at ih
            exact absurd ih not_false
          | ok acc =>
            rw [hc', hc] at ih
            exact List.Perm.append hadv ih

theorem collectAdvance_pred {compile : GlobCompiler} {g : GlobOptionsM}
    {excl : List GlobMatcher} {fs : Fs} {seg : String}
    {P : WalkEntry → Prop}
    (hadv : ∀ m seg' l, advanceMatch compile g excl fs m seg' = .ok l →
      ∀ e ∈ l, P e) :
    ∀ {ms : List WalkEntry} {L : List WalkEntry},
      collectAdvance compile g excl fs seg ms = .ok L → ∀ e ∈ L, P e := by
  intro ms
  induction ms with
  | nil =>
    intro L h
    unfold collectAdvance at h
    simp only [Except.ok.injEq] at h
    rw [← h]
    simp
  | cons m rest ih =>
    intro L h
    unfold collectAdvance at h
    split at h
    · exact absurd h (by simp)
    · next r hr =>
      split at h
      · exact absurd h (by simp)
      · next acc hacc =>
        simp only [Except.ok.injEq] at h
        rw [← h]
        intro e he
        rcases List.mem_append.mp he with he | he
        · exact hadv m seg r hr e he
        · exact ih hacc e he

/-! ### Step and loop lemmas -/

theorem stepSegment_sorted_nodup {compile : GlobCompiler} {g : GlobOptionsM}
    {excl : List GlobMatcher} {fs : Fs} {ms : List WalkEntry} {seg : String}
    {l : List WalkEntry}
    (h : stepSegment compile g excl fs ms seg = .ok l) :
    List.Pairwise entryLe l ∧ (pathsOf l).Nodup := by
  unfold stepSegment at h
  split at h
  · exact absurd h (by simp)
  · simp only [Except.ok.injEq] at h
    rw [← h]
    constructor
    · exact sortByPath_pairwise _
    · exact pathsOf_nodup_of_perm (sortByPath_perm _).symm
        (dedupByPath_nodup _)

theorem collectAdvance_mem {compile : GlobCompiler} {g : GlobOptionsM}
    {excl : List GlobMatcher} {fs : Fs} {seg : String} :
    ∀ {ms L : List WalkEntry},
      collectAdvance compile g excl fs seg ms = .ok L → ∀ e ∈ L,
        ∃ m ∈ ms, ∃ r, advanceMatch compile g excl fs m seg = .ok r ∧
          e ∈ r := by
  intro ms
  induction ms with
  | nil =>
    intro L h
    unfold collectAdvance at h
    simp only [Except.ok.injEq] at h
    rw [← h]
    simp
  | cons m rest ih =>
    intro L h
    unfold collectAdvance at h
    split at h
    · exact absurd h (by simp)
    · next r hr =>
      split at h
      · exact absurd h (by simp)
      · next acc hacc =>
        simp only [Except.ok.injEq] at h
        rw [← h]
        intro e he
        rcases List.mem_append.mp he with he | he
        · exact ⟨m, List.mem_cons_self m rest, r, hr, he⟩
        · obtain ⟨m2, hm2, hrest⟩ := ih hacc e he
          exact ⟨m2, List.mem_cons_of_mem m hm2, hrest⟩

theorem stepSegment_mem {compile : GlobCompiler} {g : GlobOptionsM}
    {excl : List GlobMatcher} {fs : Fs} {ms : List WalkEntry} {seg : String}
    {l : List WalkEntry} {e : WalkEntry}
    (h : stepSegment compile g excl fs ms seg = .ok l) (he : e ∈ l) :
    ∃ m ∈ ms, ∃ r, advanceMatch compile g excl fs m seg = .ok r ∧ e ∈ r := by
  unfold stepSegment at h
  split at h
  · exact absurd h (by simp)
  · next all hall =>
    simp only [Except.ok.injEq] at h
    rw [← h] at he
    have he2 : e ∈ all :=
      mem_dedupByPath_sub ((sortByPath_perm _).mem_iff.mp he)
    exact collectAdvance_mem hall e he2

theorem stepSegment_canon {compile : GlobCompiler} {g : GlobOptionsM}
    {excl : List GlobMatcher} {fs : Fs} {ms : List WalkEntry} {seg : String}
    {l : List WalkEntry} (hn : fs.NodupKeys)
    (h : stepSegment compile g excl fs ms seg = .ok l) :
    ∀ e ∈ l, Canon fs e := by
  intro e he
  obtain ⟨m, _, r, hr, her⟩ := stepSegment_mem h he
  exact advanceMatch_canon hn hr e her

theorem stepSegment_shouldInclude {compile : GlobCompiler}
    {g : GlobOptionsM} {excl : List GlobMatcher} {fs : Fs}
    {ms : List WalkEntry} {seg : String} {l : List WalkEntry}
    (h : stepSegment compile g excl fs ms seg = .ok l) :
    ∀ e ∈ l, shouldInclude excl e.path = true := by
  intro e he
  obtain ⟨m, _, r, hr, her⟩ := stepSegment_mem h he
  exact advanceMatch_shouldInclude hr e her

theorem stepSegment_perm_eq {compile : GlobCompiler} {g : GlobOptionsM}
    {excl : List GlobMatcher} {es' : List (String × Bool)} (fs : Fs)
    (hn : fs.NodupKeys) (hp : es'.Perm fs.entries) (ms : List WalkEntry)
    (seg : String) :
    stepSegment compile g excl { entries := es', errPaths := fs.errPaths }
        ms seg =
      stepSegment compile g excl fs ms seg := by
  unfold stepSegment
  have hcoll := @collectAdvance_perm compile g excl es' fs hn hp seg ms
  cases hc' : collectAdvance compile g excl
      { entries := es', errPaths := fs.errPaths } seg ms with
  | error e' =>
    cases hc : collectAdvance compile g excl fs seg ms with
    | error e =>
      rw [hc', hc] at hcoll
      rw [hcoll]
    | ok all =>
      rw [hc', hc] at hcoll
      exact absurd hcoll not_false
  | ok all' =>
    cases hc : collectAdvance compile g excl fs seg ms with
    | error e =>
      rw [hc', hc] at hcoll
      exact absurd hcoll not_false
    | ok all =>
      rw [hc', hc] at hcoll
      -- the two collections are permutations of canonical entries
      have hcanon : ∀ e ∈ all, Canon fs e := by
        intro e he
        exact collectAdvance_pred
          (fun m seg' l hl e' he' => advanceMatch_canon hn hl e' he')
          hc e he
      have hcanon' : ∀ e ∈ all', Canon fs e :=
        fun e he => hcanon e (hcoll.mem_iff.mp he)
      have hd : (dedupByPath all').Perm (dedupByPath all) :=
        @dedupByPath_perm fs all' all hcoll hcanon'
      have hnd' : (pathsOf (dedupByPath all')).Nodup := dedupByPath_nodup _
      have hnd : (pathsOf (dedupByPath all)).Nodup := dedupByPath_nodup _
      have hsp : (sortByPath (dedupByPath all')).Perm
          (sortByPath (dedupByPath all)) :=
        ((sortByPath_perm _).trans hd).trans (sortByPath_perm _).symm
      have hlt' : List.Pairwise entryLt (sortByPath (dedupByPath all')) :=
        pairwise_lt_of_le_nodup (sortByPath_pairwise _)
          (pathsOf_nodup_of_perm (sortByPath_perm _).symm hnd')
      have hlt : List.Pairwise entryLt (sortByPath (dedupByPath all)) :=
        pairwise_lt_of_le_nodup (sortByPath_pairwise _)
          (pathsOf_nodup_of_perm (sortByPath_perm _).symm hnd)
      show Except.ok (sortByPath (dedupByPath all')) =
        Except.ok (sortByPath (dedupByPath all))
      rw [sorted_eq_of_perm hsp hlt' hlt]

theorem foldSegments_perm_eq {compile : GlobCompiler} {g : GlobOptionsM}
    {excl : List GlobMatcher} {es' : List (String × Bool)} (fs : Fs)
    (hn : fs.NodupKeys) (hp : es'.Perm fs.entries) (ms : List WalkEntry)
    (segs : List String) :
    foldSegments compile g excl { entries := es', errPaths := fs.errPaths }
        ms segs =
      foldSegments compile g excl fs ms segs := by
  induction segs generalizing ms with
  | nil => rfl
  | cons seg rest ih =>
    unfold foldSegments
    rw [stepSegment_perm_eq fs hn hp ms seg]
    cases hs : stepSegment compile g excl fs ms seg with
    | error e => rfl
    | ok next => exact ih next

theorem foldSegments_last_step {compile : GlobCompiler} {g : GlobOptionsM}
    {excl : List GlobMatcher} {fs : Fs}
    {P : List WalkEntry → Prop}
    (hstep : ∀ ms seg l, stepSegment compile g excl fs ms seg = .ok l → P l) :
    ∀ {segs : List String} {ms l : List WalkEntry}, segs ≠ [] →
      foldSegments compile g excl fs ms segs = .ok l → P l := by
  intro segs
  induction segs with
  | nil =>
    intro ms l hne h
    exact absurd rfl hne
  | cons seg rest ih =>
    intro ms l _ h
    unfold foldSegments at h
    split at h
    · exact absurd h (by simp)
    · next next hnext =>
      cases rest with
      | nil =>
        unfold foldSegments at h
        simp only [Except.ok.injEq] at h
        exact h ▸ hstep ms seg next hnext
      | cons seg' rest' =>
        exact ih (by simp) h

theorem foldSegments_inv {compile : GlobCompiler} {g : GlobOptionsM}
    {excl : List GlobMatcher} {fs : Fs}
    {P : WalkEntry → Prop}
    (hstep : ∀ ms seg l, stepSegment compile g excl fs ms seg = .ok l →
      ∀ e ∈ l, P e) :
    ∀ {segs : List String} {ms l : List WalkEntry}, (∀ e ∈ ms, P e) →
      foldSegments compile g excl fs ms segs = .ok l → ∀ e ∈ l, P e := by
  intro segs
  induction segs with
  | nil =>
    intro ms l hms h
    unfold foldSegments at h
    simp only [Except.ok.injEq] at h
    exact h ▸ hms
  | cons seg rest ih =>
    intro ms l hms h
    unfold foldSegments at h
    split at h
    · exact absurd h (by simp)
    · next next hnext =>
      exact ih (hstep ms seg next hnext) h

/-! ### Final filter lemmas -/

theorem dirOnlyFilter_sublist (t : Bool) (l : List WalkEntry) :
    (dirOnlyFilter t l).Sublist l := by
  unfold dirOnlyFilter
  split
  · exact List.filter_sublist l
  · exact List.Sublist.refl l

theorem applyFilters_sublist (t i : Bool) (l : List WalkEntry) :
    (applyFilters t i l).Sublist l := by
  unfold applyFilters
  split
  · exact (List.filter_sublist _).trans (dirOnlyFilter_sublist t l)
  · exact dirOnlyFilter_sublist t l

theorem applyFilters_pairwise {t i : Bool} {l : List WalkEntry}
    (h : List.Pairwise entryLt l) :
    List.Pairwise entryLt (applyFilters t i l) :=
  List.Pairwise.sublist (applyFilters_sublist t i l) h

theorem applyFilters_mem {t i : Bool} {l : List WalkEntry} {e : WalkEntry}
    (h : e ∈ applyFilters t i l) : e ∈ l :=
  (applyFilters_sublist t i l).mem h

theorem applyFilters_nodup {t i : Bool} {l : List WalkEntry}
    (h : (pathsOf l).Nodup) : (pathsOf (applyFilters t i l)).Nodup :=
  List.Nodup.sublist (List.Sublist.map WalkEntry.path
    (applyFilters_sublist t i l)) h

/-! ### Engine-level lemmas -/

theorem createWalkEntrySync_eq (fs : Fs) (p : String) :
    createWalkEntrySync fs p = createWalkEntry fs p := rfl

theorem walkSync_eq (fs : Fs) (root : String) (o : WalkOptionsM) :
    walkSync fs root o = walk fs root o := rfl

theorem advanceMatchSync_eq (compile : GlobCompiler) (g : GlobOptionsM)
    (excl : List GlobMatcher) (fs : Fs) (m : WalkEntry) (seg : String) :
    advanceMatchSync compile g excl fs m seg =
      advanceMatch compile g excl fs m seg := rfl

theorem collectAdvanceSync_eq (compile : GlobCompiler) (g : GlobOptionsM)
    (excl : List GlobMatcher) (fs : Fs) (seg : String)
    (ms : List WalkEntry) :
    collectAdvanceSync compile g excl fs seg ms =
      collectAdvance compile g excl fs seg ms := by
  induction ms with
  | nil => rfl
  | cons m rest ih =>
    unfold collectAdvanceSync collectAdvance
    rw [advanceMatchSync_eq, ih]

theorem stepSegmentSync_eq (compile : GlobCompiler) (g : GlobOptionsM)
    (excl : List GlobMatcher) (fs : Fs) (ms : List WalkEntry)
    (seg : String) :
    stepSegmentSync compile g excl fs ms seg =
      stepSegment compile g excl fs ms seg := by
  unfold stepSegmentSync stepSegment
  rw [collectAdvanceSync_eq]

theorem foldSegmentsSync_eq (compile : GlobCompiler) (g : GlobOptionsM)
    (excl : List GlobMatcher) (fs : Fs) (ms : List WalkEntry)
    (segs : List String) :
    foldSegmentsSync compile g excl fs ms segs =
      foldSegments compile g excl fs ms segs := by
  induction segs generalizing ms with
  | nil => rfl
  | cons seg rest ih =>
    unfold foldSegmentsSync foldSegments
    rw [stepSegmentSync_eq]
    cases stepSegment compile g excl fs ms seg with
    | error e => rfl
    | ok next => exact ih next

/-- The synchronous engine computes the same function as the asynchronous
one: the two mirrored call chains erase to identical pure recursions. -/
theorem expandGlobSync_eq (compile : GlobCompiler) (cwd : String) (fs : Fs)
    (glob : String) (o : ExpandGlobOptionsM) :
    expandGlobSync compile cwd fs glob o =
      expandGlob compile cwd fs glob o := by
  unfold expandGlobSync expandGlob
  rw [createWalkEntrySync_eq]
  cases createWalkEntry fs (fixedPairOf cwd glob o).1 with
  | error e => cases e <;> rfl
  | ok info =>
    dsimp only
    rw [foldSegmentsSync_eq]

theorem expandGlob_ok_sorted {compile : GlobCompiler} {cwd : String}
    {fs : Fs} {glob : String} {o : ExpandGlobOptionsM} {l : List WalkEntry}
    (h : expandGlob compile cwd fs glob o = .ok l) :
    List.Pairwise entryLt l ∧ (pathsOf l).Nodup := by
  unfold expandGlob at h
  split at h
  · simp only [Except.ok.injEq] at h
    rw [← h]
    exact ⟨List.Pairwise.nil, List.nodup_nil⟩
  · exact absurd h (by simp)
  · next info hinfo =>
    split at h
    · exact absurd h (by simp)
    · next final hfold =>
      simp only [Except.ok.injEq] at h
      rw [← h]
      have hfin : List.Pairwise entryLe final ∧ (pathsOf final).Nodup := by
        cases hsegs : (fixedPairOf cwd glob o).2 with
        | nil =>
          rw [hsegs] at hfold
          unfold foldSegments at hfold
          simp only [Except.ok.injEq] at hfold
          rw [← hfold]
          exact ⟨by simp, by simp [pathsOf]⟩
        | cons s rest =>
          rw [hsegs] at hfold
          exact foldSegments_last_step
            (fun ms seg l' hl' => stepSegment_sorted_nodup hl')
            (by simp) hfold
      refine ⟨applyFilters_pairwise (pairwise_lt_of_le_nodup hfin.1 hfin.2),
        applyFilters_nodup hfin.2⟩

theorem expandGlob_perm_eq {compile : GlobCompiler} {cwd : String}
    {glob : String} {o : ExpandGlobOptionsM} {es' : List (String × Bool)}
    (fs : Fs) (hn : fs.NodupKeys) (hp : es'.Perm fs.entries) :
    expandGlob compile cwd { entries := es', errPaths := fs.errPaths } glob
        o =
      expandGlob compile cwd fs glob o := by
  unfold expandGlob
  rw [createWalkEntry_perm fs hn hp]
  cases createWalkEntry fs (fixedPairOf cwd glob o).1 with
  | error e => cases e <;> rfl
  | ok info =>
    dsimp only
    rw [foldSegments_perm_eq fs hn hp]

theorem expandGlob_ok_canon {compile : GlobCompiler} {cwd : String}
    {fs : Fs} {glob : String} {o : ExpandGlobOptionsM} {l : List WalkEntry}
    (hn : fs.NodupKeys) (h : expandGlob compile cwd fs glob o = .ok l) :
    ∀ e ∈ l, Canon fs e := by
  unfold expandGlob at h
  split at h
  · simp only [Except.ok.injEq] at h
    rw [← h]
    simp
  · exact absurd h (by simp)
  · next info hinfo =>
    split at h
    · exact absurd h (by simp)
    · next final hfold =>
      simp only [Except.ok.injEq] at h
      rw [← h]
      intro e he
      have hinit : ∀ x ∈ [info], Canon fs x := by
        intro x hx
        rw [List.mem_singleton.mp hx]
        exact createWalkEntry_canon hinfo
      exact foldSegments_inv
        (fun ms seg l' hl' => stepSegment_canon hn hl')
        hinit hfold e (applyFilters_mem he)

theorem expandGlob_ok_shouldInclude {compile : GlobCompiler} {cwd : String}
    {fs : Fs} {glob : String} {o : ExpandGlobOptionsM} {l : List WalkEntry}
    (hsegs : (fixedPairOf cwd glob o).2 ≠ [])
    (h : expandGlob compile cwd fs glob o = .ok l) :
    ∀ e ∈ l,
      shouldInclude (excludePatternsOf compile cwd o) e.path = true := by
  unfold expandGlob at h
  split at h
  · simp only [Except.ok.injEq] at h
    rw [← h]
    simp
  · exact absurd h (by simp)
  · next info hinfo =>
    split at h
    · exact absurd h (by simp)
    · next final hfold =>
      simp only [Except.ok.injEq] at h
      rw [← h]
      intro e he
      exact foldSegments_last_step
        (fun ms seg l' hl' => stepSegment_shouldInclude hl')
        hsegs hfold e (applyFilters_mem he)

/-! ### Splitter lemmas -/

theorem strmk_ne_empty {l : List Char} (h : l ≠ []) : String.mk l ≠ "" := by
  intro heq
  exact h (congrArg String.data heq)

theorem dropWhile_exists_not {α : Type} {p : α → Bool} {l : List α}
    (h : ∃ c ∈ l, p c = false) : ∃ c ∈ l.dropWhile p, p c = false := by
  induction l with
  | nil => exact h
  | cons a t ih =>
    obtain ⟨c, hc, hpc⟩ := h
    by_cases hpa : p a = true
    · rw [List.dropWhile_cons_of_pos hpa]
      rcases List.mem_cons.mp hc with rfl | hc
      · rw [hpa] at hpc
        exact absurd hpc (by simp)
      · exact ih ⟨c, hc, hpc⟩
    · rw [List.dropWhile_cons_of_neg hpa]
      exact ⟨c, hc, hpc⟩

theorem suffix_getLast? {α : Type} {l₁ l₂ : List α} (h : l₁ <:+ l₂)
    (hne : l₁ ≠ []) : l₂.getLast? = l₁.getLast? := by
  obtain ⟨t, rfl⟩ := h
  induction t with
  | nil => rfl
  | cons a t ih =>
    rw [List.cons_append]
    rw [← ih]
    cases ht : t ++ l₁ with
    | nil => exact absurd (List.append_eq_nil.mp ht).2 hne
    | cons b u =>
      rw [List.getLast?_cons_cons]

theorem getLast?_cons_of_ne {α : Type} {rest : List α} (c : α)
    (h : rest ≠ []) : (c :: rest).getLast? = rest.getLast? := by
  cases rest with
  | nil => exact absurd rfl h
  | cons b u => exact List.getLast?_cons_cons

theorem stripSeps_ne_nil {w : Bool} {l : List Char}
    (h : ∃ c ∈ l, isSepChar w c = false) : stripSeps w l ≠ [] := by
  unfold stripSeps
  have h1 := dropWhile_exists_not h
  have h2 : ∃ c ∈ (l.dropWhile (isSepChar w)).reverse,
      isSepChar w c = false := by
    obtain ⟨c, hc, hpc⟩ := h1
    exact ⟨c, List.mem_reverse.mpr hc, hpc⟩
  have h3 := dropWhile_exists_not h2
  obtain ⟨c, hc, _⟩ := h3
  intro heq
  rw [List.reverse_eq_nil_iff] at heq
  rw [heq] at hc
  exact absurd hc (List.not_mem_nil c)

theorem stripSeps_getLast {w : Bool} {l : List Char} {c : Char}
    (hc : (stripSeps w l).getLast? = some c) : isSepChar w c = false := by
  unfold stripSeps at hc
  rw [List.getLast?_reverse] at hc
  have hne : (l.dropWhile (isSepChar w)).reverse.dropWhile (isSepChar w)
      ≠ [] := by
    intro h
    rw [h] at hc
    exact absurd hc (by simp)
  have hhead := List.head_dropWhile_not (isSepChar w)
    (l.dropWhile (isSepChar w)).reverse hne
  rw [List.head?_eq_head hne] at hc
  simp only [Option.some.injEq] at hc
  exact hc ▸ hhead

theorem stripSeps_head {w : Bool} {l : List Char} {c : Char}
    (hc : (stripSeps w l).head? = some c) : isSepChar w c = false := by
  unfold stripSeps at hc
  rw [List.head?_reverse] at hc
  have hne : (l.dropWhile (isSepChar w)).reverse.dropWhile (isSepChar w)
      ≠ [] := by
    intro h
    rw [h] at hc
    exact absurd hc (by simp)
  rw [← suffix_getLast? (List.dropWhile_suffix (isSepChar w)) hne] at hc
  rw [List.getLast?_reverse] at hc
  have hne2 : l.dropWhile (isSepChar w) ≠ [] := by
    intro h
    rw [h] at hc
    exact absurd hc (by simp)
  have hhead := List.head_dropWhile_not (isSepChar w) l hne2
  rw [List.head?_eq_head hne2] at hc
  simp only [Option.some.injEq] at hc
  exact hc ▸ hhead

theorem jsSplitAux_no_empty (sep : Char → Bool) :
    ∀ (l : List Char) (inRun : Bool) (cur : List Char),
      (l = [] → cur ≠ []) →
      (∀ c rest, l = c :: rest → sep c = true → inRun = false → cur ≠ []) →
      (∀ c, l.getLast? = some c → sep c = false) →
      ∀ s ∈ jsSplitAux sep inRun cur l, s ≠ "" := by
  intro l
  induction l with
  | nil =>
    intro inRun cur h1 _ _ s hs
    unfold jsSplitAux at hs
    rw [List.mem_singleton.mp hs]
    exact strmk_ne_empty (by simpa using h1 rfl)
  | cons c rest ih =>
    intro inRun cur h1 h2 h3 s hs
    unfold jsSplitAux at hs
    by_cases hc : sep c = true
    · rw [if_pos hc] at hs
      have hrest : rest ≠ [] := by
        intro h
        rw [h] at h3
        exact absurd (h3 c rfl) (by simp [hc])
      have h3' : ∀ c', rest.getLast? = some c' → sep c' = false := by
        intro c' hc'
        exact h3 c' (by rw [getLast?_cons_of_ne c hrest]; exact hc')
      by_cases hr : inRun = true
      · rw [if_pos hr] at hs
        exact ih true cur (fun h => absurd h hrest)
          (fun c' rest' _ _ h => absurd h (by simp)) h3' s hs
      · rw [if_neg hr] at hs
        rcases List.mem_cons.mp hs with rfl | hs
        · exact strmk_ne_empty
            (by simpa using h2 c rest rfl hc (by simpa using hr))
        · exact ih true [] (fun h => absurd h hrest)
            (fun c' rest' _ _ h => absurd h (by simp)) h3' s hs
    · rw [if_neg hc] at hs
      have h3' : ∀ c', rest.getLast? = some c' → sep c' = false := by
        intro c' hc'
        have hrest : rest ≠ [] := by
          intro h
          rw [h] at hc'
          exact absurd hc' (by simp)
        exact h3 c' (by rw [getLast?_cons_of_ne c hrest]; exact hc')
      exact ih false (c :: cur) (fun _ => by simp)
        (fun c' rest' _ _ _ => by simp) h3' s hs

theorem rawSegs_no_empty {w : Bool} {p : String}
    (h : ∃ c ∈ p.data, isSepChar w c = false) :
    ∀ s ∈ rawSegs w p, s ≠ "" := by
  unfold rawSegs jsSplitRuns
  apply jsSplitAux_no_empty
  · intro hnil
    exact absurd hnil (stripSeps_ne_nil h)
  · intro c rest heq hsep _
    have : (stripSeps w p.data).head? = some c := by
      rw [heq]
      rfl
    exact absurd hsep (by simp [stripSeps_head this])
  · intro c hc
    exact stripSeps_getLast hc

theorem split_segments_sub {w : Bool} {p : String} {s : String}
    (h : s ∈ (split w p).segments) : s ∈ rawSegs w p := by
  unfold split at h
  simp only at h
  split at h
  · exact List.mem_of_mem_tail h
  · exact h

theorem split_no_empty {w : Bool} {p : String}
    (h : ∃ c ∈ p.data, isSepChar w c = false) :
    ∀ s ∈ (split w p).segments, s ≠ "" :=
  fun s hs => rawSegs_no_empty h s (split_segments_sub hs)

theorem split_winRoot {w : Bool} {p : String} {r : String}
    (h : (split w p).winRoot = some r) :
    w = true ∧ (split w p).isAbsolute = true ∧
      r :: (split w p).segments = rawSegs w p := by
  unfold split at h ⊢
  simp only at h ⊢
  split at h
  · next hshift =>
    simp only [Bool.and_eq_true] at hshift
    obtain ⟨hw, habs⟩ := hshift
    subst hw
    refine ⟨rfl, habs, ?_⟩
    rw [if_pos (by simp [habs])]
    exact List.cons_head?_tail h
  · exact absurd h (by simp)

theorem applyFilters_trailing (i : Bool) (l : List WalkEntry) :
    (∀ e ∈ applyFilters true i l, e.isDirectory = true) ∧
      (i = false → applyFilters true i l = []) := by
  have hdir : dirOnlyFilter true l = l.filter (fun e => e.isDirectory) := by
    unfold dirOnlyFilter
    rw [if_pos rfl]
  unfold applyFilters
  rw [hdir]
  by_cases hi : i = false
  · rw [if_pos hi]
    constructor
    · intro e he
      rw [List.mem_filter] at he
      exact (List.mem_filter.mp he.1).2
    · intro _
      rw [List.filter_filter]
      apply List.filter_eq_nil_iff.mpr
      intro a _
      simp
  · rw [if_neg hi]
    refine ⟨fun e he => (List.mem_filter.mp he).2, fun h => absurd h hi⟩

/-! ### The claims -/

/-- C1: every run of `expandGlob` / `expandGlobSync` yields its entries in
strictly ascending order of path strings, and on a filesystem with distinct
path keys the output is unchanged when the filesystem lists its entries in
any other order — so the order is stable across repeated runs on an
unchanged tree and does not depend on directory-listing order. -/
theorem c1_sorted_deterministic_output (compile : GlobCompiler)
    (cwd glob : String) (o : ExpandGlobOptionsM) (fs : Fs)
    (es' : List (String × Bool)) (hn : fs.NodupKeys)
    (hp : es'.Perm fs.entries) :
    (∀ l, expandGlob compile cwd fs glob o = .ok l →
      List.Pairwise entryLt l) ∧
    (∀ l, expandGlobSync compile cwd fs glob o = .ok l →
      List.Pairwise entryLt l) ∧
    expandGlob compile cwd { entries := es', errPaths := fs.errPaths } glob
        o =
      expandGlob compile cwd fs glob o ∧
    expandGlobSync compile cwd { entries := es', errPaths := fs.errPaths }
        glob o =
      expandGlobSync compile cwd fs glob o := by
  refine ⟨fun l h => (expandGlob_ok_sorted h).1, fun l h => ?_,
    expandGlob_perm_eq fs hn hp, ?_⟩
  · rw [expandGlobSync_eq] at h
    exact (expandGlob_ok_sorted h).1
  · rw [expandGlobSync_eq, expandGlobSync_eq]
    exact expandGlob_perm_eq fs hn hp

theorem c1_witness :
    expandGlob simpleCompile "/"
        { entries := fsDemoRev, errPaths := fsDemo.errPaths } "a/*.ts" {} =
      expandGlob simpleCompile "/" fsDemo "a/*.ts" {} :=
  (c1_sorted_deterministic_output simpleCompile "/" "a/*.ts" {} fsDemo
    fsDemoRev (by decide) (by decide)).2.2.1

/-- C2 counterexample: with root `/a/b` and glob `..`, the resolved fixed
root is `/a`, which is yielded although it is neither the root `/a/b` nor
beneath it, refuting "every yielded entry is reachable under root". -/
theorem c2_counterexample :
    expandGlob simpleCompile "/" fsTwoDirs ".." { root := some "/a/b" } =
      .ok [{ path := "/a", isDirectory := true }] ∧
    relDepth "/a/b" "/a" = none :=
  ⟨rfl, rfl⟩

/-- C2 (amended): each path appears at most once among the yielded entries
regardless of how many alternate segment paths reach the same node, every
yielded entry is an existing filesystem node (its stat succeeds with the
same directory flag) — though not necessarily under `root`, since absolute
globs and parent traversal can leave the root — and every per-segment
working set produced by the loop is deduplicated by path. -/
theorem c2_unique_existing_nodes (compile : GlobCompiler)
    (cwd glob : String) (o : ExpandGlobOptionsM) (fs : Fs)
    (hn : fs.NodupKeys) :
    (∀ l, expandGlob compile cwd fs glob o = .ok l →
      (pathsOf l).Nodup ∧
        ∀ e ∈ l, fs.statKind e.path = some e.isDirectory) ∧
    (∀ g excl ms seg l, stepSegment compile g excl fs ms seg = .ok l →
      (pathsOf l).Nodup) := by
  constructor
  · intro l h
    exact ⟨(expandGlob_ok_sorted h).2, expandGlob_ok_canon hn h⟩
  · intro g excl ms seg l h
    exact (stepSegment_sorted_nodup h).2

theorem c2_witness :
    (pathsOf [{ path := "/a/b.ts", isDirectory := false }]).Nodup ∧
      ∀ e ∈ [({ path := "/a/b.ts", isDirectory := false } : WalkEntry)],
        fsDemo.statKind e.path = some e.isDirectory :=
  (c2_unique_existing_nodes simpleCompile "/" "a/*.ts" {} fsDemo
    (by decide)).1 [{ path := "/a/b.ts", isDirectory := false }] rfl

/-- C3: if the single stat of the fixed root fails with NotFound, both
engines yield no entries and terminate normally; any other failure of that
stat propagates to the caller. -/
theorem c3_fixed_root_stat (compile : GlobCompiler) (cwd glob : String)
    (o : ExpandGlobOptionsM) (fs : Fs) :
    (createWalkEntry fs (fixedRootOf cwd glob o) = .error .notFound →
      expandGlob compile cwd fs glob o = .ok [] ∧
        expandGlobSync compile cwd fs glob o = .ok []) ∧
    ∀ er, er ≠ FsError.notFound →
      createWalkEntry fs (fixedRootOf cwd glob o) = .error er →
      expandGlob compile cwd fs glob o = .error er ∧
        expandGlobSync compile cwd fs glob o = .error er := by
  constructor
  · intro h
    unfold fixedRootOf at h
    constructor
    · unfold expandGlob
      rw [h]
    · rw [expandGlobSync_eq]
      unfold expandGlob
      rw [h]
  · intro er hne h
    unfold fixedRootOf at h
    cases er with
    | notFound => exact absurd rfl hne
    | otherError =>
      constructor
      · unfold expandGlob
        rw [h]
      · rw [expandGlobSync_eq]
        unfold expandGlob
        rw [h]

theorem c3_witness :
    expandGlob simpleCompile "/" { entries := [], errPaths := [] } "/x" {} =
      .ok [] ∧
    expandGlob simpleCompile "/" fsErr "/x" {} = .error .otherError :=
  ⟨((c3_fixed_root_stat simpleCompile "/" "/x" {}
      { entries := [], errPaths := [] }).1 rfl).1,
   ((c3_fixed_root_stat simpleCompile "/" "/x" {} fsErr).2 .otherError
      (by decide) rfl).1⟩

/-- C4 counterexample: with an entirely literal glob the segments are all
consumed into the fixed root, whose entry is yielded without any exclude
check — so a path matching an exclude pattern appears in the output. -/
theorem c4_counterexample :
    expandGlob simpleCompile "/" fsDemo "/a/b.ts"
        { exclude := ["/a/b.ts"] } =
      .ok [{ path := "/a/b.ts", isDirectory := false }] ∧
    shouldInclude
        (excludePatternsOf simpleCompile "/" { exclude := ["/a/b.ts"] })
        "/a/b.ts" = false ∧
    remainingSegsOf "/" "/a/b.ts" { exclude := ["/a/b.ts"] } = [] :=
  ⟨rfl, rfl, rfl⟩

/-- C4 (amended): for every expansion whose resolved glob retains at least
one segment after fixed-root consumption, no yielded entry's path matches
a compiled exclude pattern; and within each walk the skip filter also
suppresses every entry below an excluded directory (an entry may still lie
beneath an excluded directory only when the walk itself starts inside it,
e.g. via the unchecked fixed root of an entirely literal prefix). -/
theorem c4_excludes_filtered (compile : GlobCompiler) (cwd glob : String)
    (o : ExpandGlobOptionsM) (fs : Fs)
    (hsegs : remainingSegsOf cwd glob o ≠ []) :
    (∀ l, expandGlob compile cwd fs glob o = .ok l → ∀ e ∈ l,
      shouldInclude (excludePatternsOf compile cwd o) e.path = true) ∧
    (∀ (fs2 : Fs) (root : String) (wo : WalkOptionsM) (e : WalkEntry),
      e ∈ walk fs2 root wo → ∀ pat ∈ wo.skip,
        pat e.path = false ∧
          ∀ q ∈ chainPaths root e.path, pat q = false) := by
  constructor
  · intro l h
    exact expandGlob_ok_shouldInclude hsegs h
  · intro fs2 root wo e he pat hpat
    exact ⟨(walk_not_skipped he).1 pat hpat,
      fun q hq => (walk_not_skipped he).2 q hq pat hpat⟩

theorem c4_witness :
    shouldInclude (excludePatternsOf simpleCompile "/"
        { exclude := ["/a/c.txt"] })
      (WalkEntry.path { path := "/a/b.ts", isDirectory := false }) = true :=
  (c4_excludes_filtered simpleCompile "/" "/a/*" { exclude := ["/a/c.txt"] }
    fsDemo (by decide)).1
    [{ path := "/a/b.ts", isDirectory := false },
      { path := "/a/x", isDirectory := true }] rfl
    { path := "/a/b.ts", isDirectory := false } (by simp)

/-- C5 counterexample: with a trailing separator and `includeDirs = false`
the two final filters compose and the output is empty — not the same set
of entries as with `includeDirs = true`, refuting "includeDirs is
irrelevant". -/
theorem c5_counterexample :
    (splitOf "/" "/a/" ({ includeDirs := false } :
        ExpandGlobOptionsM)).hasTrailingSep = true ∧
    expandGlob simpleCompile "/" fsDemo "/a/" { includeDirs := false } =
      .ok [] ∧
    expandGlob simpleCompile "/" fsDemo "/a/" {} =
      .ok [{ path := "/a", isDirectory := true }] ∧
    ([] : List WalkEntry) ≠ [{ path := "/a", isDirectory := true }] :=
  ⟨rfl, rfl, rfl, by decide⟩

/-- C5 (amended): when the resolved glob pattern ends with a separator,
every yielded entry is a directory; and since the `includeDirs = false`
filter still applies afterwards, that combination yields the empty
sequence rather than the same set as `includeDirs = true`. -/
theorem c5_trailing_sep_directories (compile : GlobCompiler)
    (cwd glob : String) (o : ExpandGlobOptionsM) (fs : Fs)
    (ht : (splitOf cwd glob o).hasTrailingSep = true) :
    ∀ l, expandGlob compile cwd fs glob o = .ok l →
      (∀ e ∈ l, e.isDirectory = true) ∧
        (o.includeDirs = false → l = []) := by
  intro l h
  unfold expandGlob at h
  split at h
  · simp only [Except.ok.injEq] at h
    rw [← h]
    exact ⟨by simp, fun _ => rfl⟩
  · exact absurd h (by simp)
  · split at h
    · exact absurd h (by simp)
    · next final hfold =>
      simp only [Except.ok.injEq] at h
      rw [← h, ht]
      exact applyFilters_trailing o.includeDirs final

theorem c5_witness :
    (∀ e ∈ [({ path := "/a", isDirectory := true } : WalkEntry)],
      e.isDirectory = true) ∧
      (({} : ExpandGlobOptionsM).includeDirs = false →
        [({ path := "/a", isDirectory := true } : WalkEntry)] = []) :=
  c5_trailing_sep_directories simpleCompile "/" "/a/" {} fsDemo rfl
    [{ path := "/a", isDirectory := true }] rfl

/-- C6: for a directory entry and the segment exactly `**`, advancement
delegates to the walker rooted at the entry's path with files excluded and
the compiled exclude patterns as skip filter, and that walk yields every
directory at every depth beneath the entry's path (immediate and nested)
whose path and in-walk ancestors avoid the exclude patterns. -/
theorem c6_globstar_delegates (compile : GlobCompiler) (g : GlobOptionsM)
    (excl : List GlobMatcher) (fs : Fs) (e : WalkEntry)
    (hd : e.isDirectory = true) :
    advanceMatch compile g excl fs e "**" =
      .ok (walk fs e.path
        { maxDepth := none, includeFiles := false, includeDirs := true
          matchPats := none, skip := excl }) ∧
    ∀ p k, (p, true) ∈ fs.entries → relDepth e.path p = some (k + 1) →
      (∀ pat ∈ excl, pat p = false) →
      (∀ q ∈ chainPaths e.path p, ∀ pat ∈ excl, pat q = false) →
      ({ path := p, isDirectory := true } : WalkEntry) ∈
        walk fs e.path
          { maxDepth := none, includeFiles := false, includeDirs := true
            matchPats := none, skip := excl } := by
  constructor
  · unfold advanceMatch
    rw [if_neg (by simp [hd]), if_neg (by decide), if_pos rfl]
  · intro p k hmem hdep hskip hchain
    apply walk_mem_intro hmem
    have hskip2 : (excl.any fun pat => pat p) = false :=
      List.any_eq_false.mpr (fun pat hpat => by simp [hskip pat hpat])
    have hchain2 : ((chainPaths e.path p).all
        (fun q => !(excl.any fun pat => pat q))) = true := by
      rw [List.all_eq_true]
      intro q hq
      simp only [Bool.not_eq_true']
      exact List.any_eq_false.mpr
        (fun pat hpat => by simp [hchain q hq pat hpat])
    unfold walkCond
    simp only
    rw [hdep]
    simp [hskip2, hchain2]

theorem c6_witness :
    advanceMatch simpleCompile { extended := false, globstar := true } []
        fsDeep { path := "/a", isDirectory := true } "**" =
      .ok (walk fsDeep "/a"
        { maxDepth := none, includeFiles := false, includeDirs := true
          matchPats := none, skip := [] }) ∧
    ({ path := "/a/b/c", isDirectory := true } : WalkEntry) ∈
      walk fsDeep "/a"
        { maxDepth := none, includeFiles := false, includeDirs := true
          matchPats := none, skip := [] } :=
  ⟨(c6_globstar_delegates simpleCompile
      { extended := false, globstar := true } [] fsDeep
      { path := "/a", isDirectory := true } rfl).1,
   (c6_globstar_delegates simpleCompile
      { extended := false, globstar := true } [] fsDeep
      { path := "/a", isDirectory := true } rfl).2 "/a/b/c" 1 (by decide)
      (by decide) (by simp) (by simp)⟩

/-- C7: advancement on `..` from a directory entry computes the parent
path; if it passes `shouldInclude` the parent is stat'ed and the single
entry yielded, a NotFound from that stat is swallowed (yielding nothing);
if it fails `shouldInclude` nothing is yielded; and a non-directory entry
yields nothing for any segment. -/
theorem c7_parent_reference (compile : GlobCompiler) (g : GlobOptionsM)
    (excl : List GlobMatcher) (fs : Fs) (e : WalkEntry) :
    (e.isDirectory = false → ∀ seg,
      advanceMatch compile g excl fs e seg = .ok []) ∧
    (e.isDirectory = true →
      (shouldInclude excl (joinGlobsModel g.globstar e.path "..") = true →
        (∀ w, createWalkEntry fs (joinGlobsModel g.globstar e.path "..") =
            .ok w → advanceMatch compile g excl fs e ".." = .ok [w]) ∧
        (createWalkEntry fs (joinGlobsModel g.globstar e.path "..") =
            .error .notFound →
          advanceMatch compile g excl fs e ".." = .ok [])) ∧
      (shouldInclude excl (joinGlobsModel g.globstar e.path "..") = false →
        advanceMatch compile g excl fs e ".." = .ok [])) := by
  constructor
  · intro hd seg
    unfold advanceMatch
    rw [if_pos hd]
  · intro hd
    have hd' : ¬ (e.isDirectory = false) := by simp [hd]
    refine ⟨fun hinc => ⟨fun w hw => ?_, fun hw => ?_⟩, fun hinc => ?_⟩
    · unfold advanceMatch
      rw [if_neg hd', if_pos rfl, if_pos hinc, hw]
    · unfold advanceMatch
      rw [if_neg hd', if_pos rfl, if_pos hinc, hw]
    · unfold advanceMatch
      rw [if_neg hd', if_pos rfl, if_neg (by simp [hinc])]

theorem c7_witness :
    advanceMatch simpleCompile { extended := false, globstar := false } []
        fsDemo { path := "/a/x", isDirectory := true } ".." =
      .ok [{ path := "/a", isDirectory := true }] :=
  (((c7_parent_reference simpleCompile
      { extended := false, globstar := false } [] fsDemo
      { path := "/a/x", isDirectory := true }).2 rfl).1 rfl).1
    { path := "/a", isDirectory := true } rfl

/-- C8: for every glob string, options and filesystem contents, the
synchronous and asynchronous engines yield the same entries in the same
order — the modes differ only in awaiting and iteration protocol, not in
matching semantics. -/
theorem c8_sync_equals_async (compile : GlobCompiler) (cwd : String)
    (fs : Fs) (glob : String) (o : ExpandGlobOptionsM) :
    expandGlobSync compile cwd fs glob o =
      expandGlob compile cwd fs glob o :=
  expandGlobSync_eq compile cwd fs glob o

/-- C9 counterexample: the bare root path `/` is absolute and normalized,
yet `split` returns `segments = [""]`, which contains an empty string. -/
theorem c9_counterexample :
    isAbsoluteModel false "/" = true ∧ normalizeAbs false "/" = "/" ∧
    "" ∈ (split false "/").segments :=
  ⟨rfl, rfl, by decide⟩

/-- C9 (amended): for every path containing at least one non-separator
character, the segments returned by `split` contain no empty strings (the
bare all-separator root is the single exception, yielding `[""]`); and
whenever `winRoot` is present the platform is Windows, the path is
absolute, and `winRoot` is exactly the leading raw segment removed from
`segments`. -/
theorem c9_split_invariants (w : Bool) (p : String)
    (h : ∃ c ∈ p.data, isSepChar w c = false) :
    (∀ s ∈ (split w p).segments, s ≠ "") ∧
    (∀ r, (split w p).winRoot = some r →
      w = true ∧ (split w p).isAbsolute = true ∧
      r :: (split w p).segments = rawSegs w p) :=
  ⟨split_no_empty h, fun _ hr => split_winRoot hr⟩

theorem c9_witness :
    (∀ s ∈ (split true "C:\\foo\\bar").segments, s ≠ "") ∧
    (split true "C:\\foo\\bar").winRoot = some "C:" ∧
    "C:" :: (split true "C:\\foo\\bar").segments =
      rawSegs true "C:\\foo\\bar" :=
  ⟨(c9_split_invariants true "C:\\foo\\bar" (by decide)).1, rfl,
    ((c9_split_invariants true "C:\\foo\\bar" (by decide)).2 "C:" rfl).2.2⟩

/-- C10: a segment that is exactly `**` is advanced by a recursive
directory walk regardless of the `globstar` option and of the pattern
compiler — neither is consulted in that branch — instead of being compiled
as an ordinary depth-1 pattern; `globstar` only reaches the compiler
through compiled segment and exclude patterns. -/
theorem c10_doublestar_ignores_globstar (c1 c2 : GlobCompiler)
    (g1 g2 : GlobOptionsM) (excl : List GlobMatcher) (fs : Fs)
    (e : WalkEntry) :
    advanceMatch c1 g1 excl fs e "**" = advanceMatch c2 g2 excl fs e "**" ∧
    (e.isDirectory = true →
      advanceMatch c1 g1 excl fs e "**" =
        .ok (walk fs e.path
          { maxDepth := none, includeFiles := false, includeDirs := true
            matchPats := none, skip := excl })) := by
  have hdd : ¬ (("**" : String) = "..") := by decide
  by_cases hd : e.isDirectory = false
  · constructor
    · unfold advanceMatch
      rw [if_pos hd]
      rw [if_pos hd]
    · intro hdt
      rw [hdt] at hd
      exact absurd hd (by simp)
  · constructor
    · unfold advanceMatch
      rw [if_neg hd]
      rw [if_neg hd]
      rw [if_neg hdd]
      rw [if_neg hdd]
      rw [if_pos rfl]
      rw [if_pos rfl]
    · intro _
      unfold advanceMatch
      rw [if_neg hd, if_neg hdd, if_pos rfl]

theorem c10_witness :
    advanceMatch simpleCompile { extended := false, globstar := false } []
        fsDeep { path := "/a", isDirectory := true } "**" =
      advanceMatch simpleCompile { extended := false, globstar := true } []
        fsDeep { path := "/a", isDirectory := true } "**" ∧
    advanceMatch simpleCompile { extended := false, globstar := false } []
        fsDeep { path := "/a", isDirectory := true } "**" =
      .ok (walk fsDeep "/a"
        { maxDepth := none, includeFiles := false, includeDirs := true
          matchPats := none, skip := [] }) :=
  ⟨(c10_doublestar_ignores_globstar simpleCompile simpleCompile
      { extended := false, globstar := false }
      { extended := false, globstar := true } [] fsDeep
      { path := "/a", isDirectory := true }).1,
   (c10_doublestar_ignores_globstar simpleCompile simpleCompile
      { extended := false, globstar := false }
      { extended := false, globstar := true } [] fsDeep
      { path := "/a", isDirectory := true }).2 rfl⟩

end ExpandGlob
